import Mathlib

/-! Kodhiyas Orders: order ledger (src/src/App.js)

A shallow embedding of the order repository and aggregation logic of the
single-file React application `KodhiyasOrdersApp`.

Modelling conventions
* JavaScript strings are `String`; an `id` is `Option String` (`none` is `null`).
* JavaScript numbers are IEEE 754 binary64 values `F64`: `NaN`, the two
  infinities and the finite values, every operation rounding to nearest with
  ties to even (`round64`).  The two zeros are one value: the program never
  divides by a zero nor prints the sign of one.
* The built-ins `parseFloat`, `String.prototype.toLowerCase`, `String` and
  `JSON.parse` are parameters (`pf`, `lower`, `toStr`, `jsonParse`) of the
  functions that call them, so every theorem holds for whatever these built-ins
  compute.
* `Math.random` and `Date` are inputs: a handler receives the strings that
  `uid()` and `nowISO()` return during that call.
* React state is an explicit record `AppState`; an event handler is a function
  from state to state.
-/

namespace KodhiyaOrders

/-! ## Built-in string and number helpers -/

/-- Code points stripped by `String.prototype.trim`: the ECMAScript `WhiteSpace`
and `LineTerminator` productions. -/
def isTrimChar (c : Char) : Bool :=
  let n := c.toNat
  n == 0x9 || n == 0xA || n == 0xB || n == 0xC || n == 0xD || n == 0x20 ||
  n == 0xA0 || n == 0x1680 || (0x2000 ≤ n && n ≤ 0x200A) || n == 0x2028 ||
  n == 0x2029 || n == 0x202F || n == 0x205F || n == 0x3000 || n == 0xFEFF

/-- `s.trim()`. -/
def trim (s : String) : String :=
  String.mk ((s.data.dropWhile isTrimChar).reverse.dropWhile isTrimChar).reverse

/-- Truthiness of a string: `""` is falsy. -/
def truthyStr (s : String) : Bool := s != ""

/-- Truthiness of an id: `null` and `""` are falsy. -/
def truthyId : Option String → Bool
  | none => false
  | some s => truthyStr s

/-- `s || "-"`. -/
def orDash (s : String) : String := if truthyStr s then s else "-"

/-! ## Numbers -/

/-- A JavaScript number: an IEEE 754 binary64 value.  The two zeros are one
value `fin 0`. -/
inductive F64 where
  | nan
  | posInf
  | negInf
  | fin (q : ℚ)
  deriving DecidableEq

instance (n : ℕ) : OfNat F64 n := ⟨.fin n⟩

/-- The power `2 ^ e` for an integer exponent. -/
def pow2 (e : ℤ) : ℚ :=
  if 0 ≤ e then ((2 ^ e.toNat : ℕ) : ℚ) else 1 / ((2 ^ (-e).toNat : ℕ) : ℚ)

/-- The number of halvings that bring `n` below 2, with `fuel` steps at most. -/
def log2Fuel : ℕ → ℕ → ℕ
  | 0, _ => 0
  | fuel + 1, n => if n < 2 then 0 else log2Fuel fuel (n / 2) + 1

/-- The exponent `k` with `2 ^ k ≤ n < 2 ^ (k + 1)`, for positive `n`. -/
def natLog2 (n : ℕ) : ℕ := log2Fuel n n

/-- The exponent `e` with `2 ^ e ≤ a < 2 ^ (e + 1)`, for positive `a`. -/
def floorLog2 (a : ℚ) : ℤ :=
  let k : ℤ := (natLog2 a.num.natAbs : ℤ) - (natLog2 a.den : ℤ)
  if pow2 k ≤ a then k else k - 1

/-- The integer nearest to `x`, a tie going to the even one. -/
def roundHalfEven (x : ℚ) : ℤ :=
  let f := ⌊x⌋
  let r := x - f
  if r < 1 / 2 then f
  else if 1 / 2 < r then f + 1
  else if f % 2 = 0 then f else f + 1

/-- The exponent of the unit in the last place of the binary64 values near
`a > 0`: 52 below the exponent of `a`, and at least -1074. -/
def ulpExp (a : ℚ) : ℤ := max (floorLog2 a - 52) (-1074)

/-- The binary64 magnitude nearest to `a > 0`: the multiple of the unit in the
last place nearest to `a`, a tie going to the even multiple. -/
def roundMagnitude (a : ℚ) : ℚ :=
  (roundHalfEven (a / pow2 (ulpExp a)) : ℚ) * pow2 (ulpExp a)

/-- The binary64 value nearest to the rational `q` (round to nearest, ties to
even), with overflow to an infinity. -/
def round64 (q : ℚ) : F64 :=
  if q = 0 then .fin 0
  else if pow2 1024 ≤ roundMagnitude |q| then (if q < 0 then .negInf else .posInf)
  else .fin (if q < 0 then -roundMagnitude |q| else roundMagnitude |q|)

/-- Binary64 addition. -/
def F64.add : F64 → F64 → F64
  | .nan, _ => .nan
  | _, .nan => .nan
  | .posInf, .negInf => .nan
  | .negInf, .posInf => .nan
  | .posInf, _ => .posInf
  | _, .posInf => .posInf
  | .negInf, _ => .negInf
  | _, .negInf => .negInf
  | .fin a, .fin b => round64 (a + b)

/-- Binary64 subtraction. -/
def F64.sub : F64 → F64 → F64
  | .nan, _ => .nan
  | _, .nan => .nan
  | .posInf, .posInf => .nan
  | .negInf, .negInf => .nan
  | .posInf, _ => .posInf
  | _, .negInf => .posInf
  | .negInf, _ => .negInf
  | _, .posInf => .negInf
  | .fin a, .fin b => round64 (a - b)

/-- Binary64 multiplication. -/
def F64.mul : F64 → F64 → F64
  | .nan, _ => .nan
  | _, .nan => .nan
  | .fin a, .fin b => round64 (a * b)
  | .fin a, .posInf => if a = 0 then .nan else if 0 < a then .posInf else .negInf
  | .fin a, .negInf => if a = 0 then .nan else if 0 < a then .negInf else .posInf
  | .posInf, .fin b => if b = 0 then .nan else if 0 < b then .posInf else .negInf
  | .negInf, .fin b => if b = 0 then .nan else if 0 < b then .negInf else .posInf
  | .posInf, .posInf => .posInf
  | .negInf, .negInf => .posInf
  | .posInf, .negInf => .negInf
  | .negInf, .posInf => .negInf

/-- Binary64 division.  A zero divisor is taken as `+0`; the program divides by
the literal 1000 only. -/
def F64.div : F64 → F64 → F64
  | .nan, _ => .nan
  | _, .nan => .nan
  | .fin a, .fin b =>
    if b = 0 then (if a = 0 then .nan else if 0 < a then .posInf else .negInf)
    else round64 (a / b)
  | .fin _, .posInf => .fin 0
  | .fin _, .negInf => .fin 0
  | .posInf, .fin b => if 0 ≤ b then .posInf else .negInf
  | .negInf, .fin b => if 0 ≤ b then .negInf else .posInf
  | .posInf, .posInf => .nan
  | .posInf, .negInf => .nan
  | .negInf, .posInf => .nan
  | .negInf, .negInf => .nan

instance : Add F64 := ⟨F64.add⟩
instance : Sub F64 := ⟨F64.sub⟩
instance : Mul F64 := ⟨F64.mul⟩
instance : Div F64 := ⟨F64.div⟩

/-- The comparison `a <= b` of two numbers; it is false when either is `NaN`. -/
def F64.le : F64 → F64 → Bool
  | .nan, _ => false
  | _, .nan => false
  | .negInf, _ => true
  | _, .posInf => true
  | .posInf, _ => false
  | _, .negInf => false
  | .fin a, .fin b => decide (a ≤ b)

instance : LE F64 := ⟨fun a b => F64.le a b = true⟩

instance (a b : F64) : Decidable (a ≤ b) := inferInstanceAs (Decidable (F64.le a b = true))

/-- `Math.round(x)`: the nearest integer, halves towards plus infinity. -/
def mathRound : F64 → F64
  | .fin q => round64 ((⌊q + 1 / 2⌋ : ℤ) : ℚ)
  | x => x

/-- How `Array.prototype.sort` reads the result `v` of its comparator for a pair
`(a, b)`: `a` may stay before `b` unless `v > 0`, and a `NaN` counts as `0`. -/
def keepsOrder : F64 → Bool
  | .nan => true
  | .posInf => false
  | .negInf => true
  | .fin v => decide (v ≤ 0)

/-- The finite value is a multiple of `2 ^ -1074`, as every binary64 is. -/
def onGrid (q : ℚ) : Prop := ∃ k : ℤ, q = k * pow2 (-1074)

/-- A number that is not `NaN` and, when finite, a multiple of `2 ^ -1074`. -/
def F64.Regular : F64 → Prop
  | .nan => False
  | .fin q => onGrid q
  | _ => True

/-- A value handed to `parseFloat`: form text or a stored number. -/
inductive JSValue where
  | str (s : String)
  | num (x : F64)
  deriving DecidableEq

/-- `x || 0` for a number `x`: `NaN` and zero are falsy and give `0`. -/
def numOrZero (x : F64) : F64 := if x = .nan ∨ x = 0 then 0 else x

/-- `parseFloat(v) || 0`.  `pf` is `parseFloat` on text; a number prints and
parses back to itself. -/
def parseFloatOrZero (pf : String → F64) : JSValue → F64
  | .str s => numOrZero (pf s)
  | .num x => numOrZero x

/-! ## Data model -/

/-- A stored order.  `pending = none` means the record has no `pending`
property; `rate` keeps whatever value the record was built with, and
`rate = none` means the record has no rate (`null` or `undefined`). -/
structure Order where
  id : Option String
  type : String
  partyName : String
  brokerName : String
  commodity : String
  quantity : F64
  unit : String
  quantityGiven : F64
  rate : Option JSValue
  timestamp : String
  remarks : String
  pending : Option F64
  deriving DecidableEq

/-- The entry form: every input is text, `id` is `null` unless an order is
being edited. -/
structure Form where
  id : Option String
  type : String
  partyName : String
  brokerName : String
  commodity : String
  quantity : String
  unit : String
  quantityGiven : String
  rate : String
  timestamp : String
  remarks : String
  deriving DecidableEq

/-- The component state (`useState` cells). -/
structure AppState where
  tab : String
  orders : List Order
  expandedGroup : Option String
  filterText : String
  form : Form
  isEditing : Bool
  deriving DecidableEq

def COMMODITIES : List String :=
  ["Cotton", "Degummed Soybean Oil", "Palmolien Oil", "Super Palmolien Oil",
   "Soybean Refined Oil", "Crude Palm Oil", "RBD Refined Oil", "Sunflower Refined Oil"]

def UNITS : List String := ["MT", "QTL", "KG"]

/-- `emptyForm`; `now` is the value of `nowISO()` at the render that built it. -/
def emptyForm (now : String) : Form :=
  { id := none, type := "SALES", partyName := "", brokerName := "",
    commodity := "Cotton", quantity := "", unit := "MT", quantityGiven := "",
    rate := "", timestamp := now, remarks := "" }

/-- The state after the first render with an empty storage slot. -/
def initialState (now : String) : AppState :=
  { tab := "sales", orders := [], expandedGroup := none, filterText := "",
    form := emptyForm now, isEditing := false }

/-! ## Repository operations -/

/-- `computePending(q, g)`. -/
def computePending (pf : String → F64) (q g : JSValue) : F64 :=
  let qn := parseFloatOrZero pf q
  let gn := parseFloatOrZero pf g
  mathRound ((qn - gn) * 1000) / 1000

/-- The `item` record built by `handleSave` before the id is assigned. -/
def saveItem (pf : String → F64) (now : String) (form : Form) : Order :=
  { id := form.id, type := form.type, partyName := form.partyName,
    brokerName := form.brokerName, commodity := form.commodity,
    quantity := parseFloatOrZero pf (.str form.quantity),
    unit := form.unit,
    quantityGiven := parseFloatOrZero pf (.str form.quantityGiven),
    rate := some (.str form.rate),
    timestamp := if truthyStr form.timestamp then form.timestamp else now,
    remarks := form.remarks,
    pending := some (computePending pf (.str form.quantity) (.str form.quantityGiven)) }

/-- The updater passed to `setOrders` by `handleSave`; `u` is what `uid()`
returns when it is called. -/
def saveUpdater (item : Order) (u : String) (prev : List Order) : List Order :=
  let others := prev.filter (fun p => p.id ≠ item.id)
  let item := if truthyId item.id then item else { item with id := some u }
  item :: others

/-- `handleSave()`.  Returns the next state and the text shown by `alert`, if
any.  `u` is the result of `uid()`, `now` of `nowISO()`, and `rendered` the
timestamp inside the `emptyForm` of the current render. -/
def handleSave (pf : String → F64) (u now rendered : String) (s : AppState) :
    AppState × Option String :=
  if truthyStr (trim s.form.partyName) then
    ({ s with orders := saveUpdater (saveItem pf now s.form) u s.orders,
              form := emptyForm rendered, isEditing := false }, none)
  else
    (s, some "Please enter Buyer/Seller name.")

/-- `handleEdit(id)`; `String(v)` is the parameter `toStr`.  No event handler of
the component calls this function. -/
def handleEdit (toStr : JSValue → String) (id : Option String) (s : AppState) : AppState :=
  match s.orders.find? (fun x => x.id = id) with
  | none => s
  | some o =>
    { s with
      form :=
        { id := o.id, type := o.type, partyName := o.partyName,
          brokerName := o.brokerName, commodity := o.commodity,
          quantity := toStr (.num o.quantity),
          unit := if truthyStr o.unit then o.unit else "MT",
          quantityGiven := toStr (.num o.quantityGiven),
          rate := (match o.rate with
            | some v => toStr v
            | none => ""),
          timestamp := o.timestamp, remarks := o.remarks },
      isEditing := true,
      tab := if o.type = "SALES" then "sales" else "purchase" }

/-- `handleDelete(id)`; `confirmed` is the answer to the `confirm` dialog. -/
def handleDelete (confirmed : Bool) (id : Option String) (s : AppState) : AppState :=
  if confirmed then { s with orders := s.orders.filter (fun x => x.id ≠ id) } else s

/-- The `sample` array of `addSampleData`; `u1 u2 u3` are the three `uid()`
results and `t1 t2 t3` the three `nowISO()` results. -/
def sampleOrders (u1 u2 u3 t1 t2 t3 : String) : List Order :=
  [ { id := some u1, type := "SALES", partyName := "Govind", brokerName := "Ramesh",
      commodity := "Palmolien Oil", quantity := 500, unit := "MT", quantityGiven := 120,
      rate := some (.num 1000), timestamp := t1, remarks := "", pending := none },
    { id := some u2, type := "SALES", partyName := "Govind", brokerName := "Ramesh",
      commodity := "Palmolien Oil", quantity := 200, unit := "MT", quantityGiven := 50,
      rate := some (.num 1010), timestamp := t2, remarks := "", pending := none },
    { id := some u3, type := "PURCHASE", partyName := "Upendra", brokerName := "Suresh",
      commodity := "Cotton", quantity := 100, unit := "MT", quantityGiven := 40,
      rate := some (.num 500), timestamp := t3, remarks := "", pending := none } ]

/-- `addSampleData()`. -/
def addSampleData (u1 u2 u3 t1 t2 t3 : String) (s : AppState) : AppState :=
  { s with orders := sampleOrders u1 u2 u3 t1 t2 t3 ++ s.orders }

/-- The "Clear All" button. -/
def clearAll (s : AppState) : AppState := { s with orders := [] }

/-- The derived list `salesOrders`. -/
def salesOrders (s : AppState) : List Order := s.orders.filter (fun o => o.type = "SALES")

/-- The derived list `purchaseOrders`. -/
def purchaseOrders (s : AppState) : List Order :=
  s.orders.filter (fun o => o.type = "PURCHASE")

/-- A string that is empty or consists only of whitespace. -/
def isBlank (s : String) : Bool := s.data.all isTrimChar

/-! ## Aggregation engine -/

/-- `arr.sort(cmp)`: the stable sort that puts `a` before `b` when
`cmp(a, b) < 0` and keeps the input order when `cmp(a, b)` is `0` or `NaN`. -/
def arraySort {α : Type} (cmp : α → α → F64) (arr : List α) : List α :=
  arr.insertionSort (fun a b => keepsOrder (cmp a b) = true)

/-- An entry of the `map` object built by `groupByBrokerParty`. -/
structure GroupEntry where
  key : String
  broker : String
  party : String
  items : List Order
  deriving DecidableEq

/-- The `totals` record of a group. -/
structure Totals where
  total : F64
  given : F64
  pending : F64
  deriving DecidableEq

/-- An element of the array returned by `groupByBrokerParty`. -/
structure Group where
  key : String
  broker : String
  party : String
  items : List Order
  totals : Totals
  deriving DecidableEq

/-- The grouping key of an order: the lowercased template
`brokerName || "-"` + `"||"` + `partyName || "-"`. -/
def groupKey (lower : String → String) (o : Order) : String :=
  lower (orDash o.brokerName ++ "||" ++ orDash o.partyName)

/-- One iteration of the `forEach` of `groupByBrokerParty`.  The object `map`
is the list of its entries in insertion order, which is the order of
`Object.values` because no key is an array index (every key contains `||`). -/
def groupInsert (lower : String → String) (map : List GroupEntry) (o : Order) :
    List GroupEntry :=
  let key := groupKey lower o
  let map :=
    if map.any (fun g => g.key = key) then map
    else map ++ [{ key := key, broker := orDash o.brokerName,
                   party := orDash o.partyName, items := [] }]
  map.map (fun g => if g.key = key then { g with items := g.items ++ [o] } else g)

/-- The `reduce` over the members of a group followed by the `pending`
assignment. -/
def groupTotals (items : List Order) : Totals :=
  let acc := items.foldl
    (fun (acc : F64 × F64) it =>
      (acc.1 + numOrZero it.quantity, acc.2 + numOrZero it.quantityGiven))
    (0, 0)
  { total := acc.1, given := acc.2,
    pending := mathRound ((acc.1 - acc.2) * 1000) / 1000 }

/-- The array `Object.values(map).map(...)` of `groupByBrokerParty`, before
sorting. -/
def groupValues (lower : String → String) (list : List Order) : List Group :=
  (list.foldl (groupInsert lower) []).map
    (fun g => { key := g.key, broker := g.broker, party := g.party,
                items := g.items, totals := groupTotals g.items })

/-- `groupByBrokerParty(list)`. -/
def groupByBrokerParty (lower : String → String) (list : List Order) : List Group :=
  arraySort (fun a b => b.totals.pending - a.totals.pending) (groupValues lower list)

/-- A value of the `map` object built by `outstandingByType`. -/
structure OutstandingEntry where
  party : String
  commodity : String
  total : F64
  given : F64
  deriving DecidableEq

/-- An element of the array returned by `outstandingByType`. -/
structure Aggregate where
  party : String
  commodity : String
  total : F64
  given : F64
  pending : F64
  deriving DecidableEq

/-- The key of an order in `outstandingByType`: the lowercased template
`partyName || "-"` + `"||"` + `commodity || "-"`. -/
def outstandingKey (lower : String → String) (o : Order) : String :=
  lower (orDash o.partyName ++ "||" ++ orDash o.commodity)

/-- One iteration of the `forEach` of `outstandingByType`; `map` is the list of
(key, value) pairs in insertion order. -/
def outstandingInsert (lower : String → String) (map : List (String × OutstandingEntry))
    (o : Order) : List (String × OutstandingEntry) :=
  let key := outstandingKey lower o
  let map :=
    if map.any (fun e => e.1 = key) then map
    else map ++ [(key, { party := orDash o.partyName, commodity := orDash o.commodity,
                         total := 0, given := 0 })]
  let map := map.map (fun e =>
    if e.1 = key then (e.1, { e.2 with total := e.2.total + numOrZero o.quantity }) else e)
  map.map (fun e =>
    if e.1 = key then (e.1, { e.2 with given := e.2.given + numOrZero o.quantityGiven })
    else e)

/-- The array `Object.values(map).map(...)` of `outstandingByType`, before
sorting. -/
def outstandingValues (lower : String → String) (typeList : List Order) : List Aggregate :=
  (typeList.foldl (outstandingInsert lower) []).map
    (fun e => { party := e.2.party, commodity := e.2.commodity, total := e.2.total,
                given := e.2.given,
                pending := mathRound ((e.2.total - e.2.given) * 1000) / 1000 })

/-- `outstandingByType(typeList)`. -/
def outstandingByType (lower : String → String) (typeList : List Order) : List Aggregate :=
  arraySort (fun a b => b.pending - a.pending) (outstandingValues lower typeList)

/-- The sum of a sequence of numbers taken from left to right, starting from
`0`, each addition rounding to binary64: what `reduce` and `+=` compute. -/
def sumLeft (xs : List F64) : F64 := xs.foldl (fun acc x => acc + x) 0

/-- Two texts that differ at most in the case of the letters A to Z. -/
def caseVariant (a b : String) : Bool :=
  a.data.map Char.toLower == b.data.map Char.toLower

/-- The grouping key with "blank" read as in the validation of the party name:
`"-"` stands in for a name that is empty or only white space. -/
def specGroupKey (lower : String → String) (o : Order) : String :=
  lower ((if isBlank o.brokerName then "-" else o.brokerName) ++ "||" ++
         (if isBlank o.partyName then "-" else o.partyName))

/-- The keys of a sequence in the order in which they are first encountered. -/
def firstKeys (ks : List String) : List String :=
  ks.foldl (fun acc k => if k ∈ acc then acc else acc ++ [k]) []

/-- The key recovered from the labels of an aggregate. -/
def aggregateKey (lower : String → String) (a : Aggregate) : String :=
  lower (a.party ++ "||" ++ a.commodity)

/-! ## Events -/

/-- The user events of the component.  The strings carried by `save`, `reset`
and `addSample` are the values returned by `uid()` and `nowISO()` while the
handler runs.  `edit` is a click on an "Edit" button. -/
inductive Action where
  | setTab (t : String)
  | setFilterText (q : String)
  | setPartyName (v : String)
  | setBrokerName (v : String)
  | setCommodity (v : String)
  | setQuantity (v : String)
  | setUnit (v : String)
  | setQuantityGiven (v : String)
  | setRate (v : String)
  | setRemarks (v : String)
  | setType
  | save (u now rendered : String)
  | reset (rendered : String)
  | edit (id : Option String)
  | delete (confirmed : Bool) (id : Option String)
  | addSample (u1 u2 u3 t1 t2 t3 : String)
  | clearAll

/-- The state after one event.  The two `select` inputs report one of their
options only.  The "Edit" buttons call `editOrder`, a name that is defined
nowhere: the click throws a `ReferenceError` before any state is set, so the
state is unchanged and `handleEdit` (with its `String` conversion `_toStr`) is
never run. -/
def step (pf : String → F64) (_toStr : JSValue → String) (s : AppState) :
    Action → AppState
  | .setTab t => { s with tab := t }
  | .setFilterText q => { s with filterText := q }
  | .setPartyName v => { s with form := { s.form with partyName := v } }
  | .setBrokerName v => { s with form := { s.form with brokerName := v } }
  | .setCommodity v =>
    if v ∈ COMMODITIES then { s with form := { s.form with commodity := v } } else s
  | .setQuantity v => { s with form := { s.form with quantity := v } }
  | .setUnit v =>
    if v ∈ UNITS then { s with form := { s.form with unit := v } } else s
  | .setQuantityGiven v => { s with form := { s.form with quantityGiven := v } }
  | .setRate v => { s with form := { s.form with rate := v } }
  | .setRemarks v => { s with form := { s.form with remarks := v } }
  | .setType =>
    { s with form := { s.form with type := if s.tab = "sales" then "SALES" else "PURCHASE" } }
  | .save u now rendered => (handleSave pf u now rendered s).1
  | .reset rendered => { s with form := emptyForm rendered, isEditing := false }
  | .edit _ => s
  | .delete confirmed id => handleDelete confirmed id s
  | .addSample u1 u2 u3 t1 t2 t3 => addSampleData u1 u2 u3 t1 t2 t3 s
  | .clearAll => clearAll s

/-- The state after a sequence of events. -/
def run (pf : String → F64) (toStr : JSValue → String) (s : AppState)
    (acts : List Action) : AppState :=
  acts.foldl (step pf toStr) s

/-- The event is a press of "Add Sample". -/
def Action.isAddSample : Action → Bool
  | .addSample _ _ _ _ _ _ => true
  | _ => false

/-- The ids stored in a collection. -/
def ids (orders : List Order) : List (Option String) := orders.map (fun o => o.id)

/-- An event draws only new ids: whenever the handler calls `uid()`, the result
is not an id stored at that moment, and the three ids of one `addSample` are
different from each other. -/
def freshStep (s : AppState) : Action → Prop
  | .save u _ _ =>
    truthyStr (trim s.form.partyName) = true → truthyId s.form.id = false →
      some u ∉ ids s.orders
  | .addSample u1 u2 u3 _ _ _ =>
    u1 ≠ u2 ∧ u1 ≠ u3 ∧ u2 ≠ u3 ∧
      some u1 ∉ ids s.orders ∧ some u2 ∉ ids s.orders ∧ some u3 ∉ ids s.orders
  | _ => True

/-- Every event of the sequence draws only new ids. -/
def freshRun (pf : String → F64) (toStr : JSValue → String) :
    AppState → List Action → Prop
  | _, [] => True
  | s, a :: acts => freshStep s a ∧ freshRun pf toStr (step pf toStr s a) acts

/-! ## Dashboards -/

/-- The characters of `needle` stand at the start of the second list. -/
def startsWith : List Char → List Char → Bool
  | [], _ => true
  | _ :: _, [] => false
  | a :: as, b :: bs => a == b && startsWith as bs

/-- The characters of `needle` occur as a contiguous part of the second list. -/
def includesChars (needle : List Char) : List Char → Bool
  | [] => startsWith needle []
  | b :: bs => startsWith needle (b :: bs) || includesChars needle bs

/-- `haystack.includes(needle)`. -/
def includes (haystack needle : String) : Bool :=
  includesChars needle.data haystack.data

/-- The filter predicate of the dashboards:
`(o.partyName + " " + o.brokerName).toLowerCase().includes(filterText.toLowerCase())`. -/
def matchesFilter (lower : String → String) (filterText : String) (o : Order) : Bool :=
  includes (lower (o.partyName ++ " " ++ o.brokerName)) (lower filterText)

/-- The derived value `salesGrouped`. -/
def salesGrouped (lower : String → String) (s : AppState) : List Group :=
  groupByBrokerParty lower ((salesOrders s).filter (matchesFilter lower s.filterText))

/-- The derived value `purchaseGrouped`. -/
def purchaseGrouped (lower : String → String) (s : AppState) : List Group :=
  groupByBrokerParty lower ((purchaseOrders s).filter (matchesFilter lower s.filterText))

/-! ## Storage adapter -/

/-- A value returned by `JSON.parse`. -/
inductive Json where
  | null
  | bool (b : Bool)
  | num (x : ℚ)
  | str (s : String)
  | arr (items : List Json)
  | obj (fields : List (String × Json))

/-- The value is an array. -/
def Json.isArray : Json → Bool
  | .arr _ => true
  | _ => false

/-- `loadOrders()`.  `raw` is the result of `localStorage.getItem(STORAGE_KEY)`
(`none` is `null`, the key being absent) and `jsonParse raw = none` means that
`JSON.parse(raw)` throws, which the `catch` turns into `[]`. -/
def loadOrders (jsonParse : String → Option Json) (raw : Option String) : Json :=
  match raw with
  | none => .arr []
  | some raw =>
    if truthyStr raw then
      match jsonParse raw with
      | some v => v
      | none => .arr []
    else .arr []

/-! ## Concrete built-ins used for evaluation -/

/-- Lowercasing of the letters A to Z, the action of `toLowerCase` on ASCII text. -/
def asciiLower (s : String) : String := String.mk (s.data.map Char.toLower)

/-- The number written by a text of decimal digits, and none for other text. -/
def parseDigits (s : String) : Option ℚ :=
  if s.data ≠ [] ∧ s.data.all Char.isDigit = true then
    some ((s.data.foldl (fun n c => 10 * n + (c.toNat - 48)) 0 : ℕ) : ℚ)
  else none

/-- `String(v)` on text, on the special numbers and on integer-valued numbers;
other numbers are not used in the examples. -/
def printValue : JSValue → String
  | .str s => s
  | .num .nan => "NaN"
  | .num .posInf => "Infinity"
  | .num .negInf => "-Infinity"
  | .num (.fin q) => if q.den = 1 then toString q.num else ""

/-- The number written by a run of decimal digits. -/
def digitsValue (ds : List Char) : ℕ :=
  ds.foldl (fun n c => 10 * n + (c.toNat - 48)) 0

/-- The power `10 ^ e` for an integer exponent. -/
def pow10 (e : ℤ) : ℚ :=
  if 0 ≤ e then ((10 ^ e.toNat : ℕ) : ℚ) else 1 / ((10 ^ (-e).toNat : ℕ) : ℚ)

/-- The value of an `ExponentPart` at the start of the text: `e` or `E`, an
optional sign and at least one digit; `0` when there is none. -/
def exponentValue : List Char → ℤ
  | [] => 0
  | c :: rest =>
    if c = 'e' ∨ c = 'E' then
      match rest with
      | [] => 0
      | d :: more =>
        if d = '+' then (digitsValue (more.takeWhile Char.isDigit) : ℤ)
        else if d = '-' then -(digitsValue (more.takeWhile Char.isDigit) : ℤ)
        else (digitsValue (rest.takeWhile Char.isDigit) : ℤ)
    else 0

/-- The value of the longest start of the text that is a
`StrUnsignedDecimalLiteral` (`Infinity`, or digits with an optional fraction
and exponent), negated when `neg`; `NaN` when there is none. -/
def parseUnsigned (neg : Bool) (cs : List Char) : F64 :=
  if startsWith "Infinity".data cs then (if neg then .negInf else .posInf)
  else
    let whole := cs.takeWhile Char.isDigit
    let rest := cs.dropWhile Char.isDigit
    let signed : ℚ → ℚ := fun q => if neg then -q else q
    match rest with
    | [] => if whole = [] then .nan else round64 (signed (digitsValue whole))
    | c :: after =>
      if c = '.' then
        let frac := after.takeWhile Char.isDigit
        let tail := after.dropWhile Char.isDigit
        if whole = [] ∧ frac = [] then .nan
        else round64 (signed ((digitsValue (whole ++ frac) : ℚ)
          * pow10 (exponentValue tail - frac.length)))
      else if whole = [] then .nan
      else round64 (signed ((digitsValue whole : ℚ) * pow10 (exponentValue rest)))

/-- `parseFloat(s)` on text: leading white space is skipped, then the longest
start that is a `StrDecimalLiteral` is read and rounded to binary64. -/
def parseFloatText (s : String) : F64 :=
  match s.data.dropWhile isTrimChar with
  | [] => .nan
  | c :: rest =>
    if c = '-' then parseUnsigned true rest
    else if c = '+' then parseUnsigned false rest
    else parseUnsigned false (c :: rest)

/-! ## Concrete inputs used for evaluation -/

/-- Two orders are entered one after the other from the empty collection, and
`uid()` returns the same token both times. -/
def collidingSaves : List Action :=
  [ .setPartyName "Govind", .save "k3f9x2a" "t1" "t1",
    .setPartyName "Mahesh", .save "k3f9x2a" "t2" "t2" ]

/-- A session in which every generated id is new: the sample is added, a new
order is entered, and a sample order is deleted. -/
def freshSession : List Action :=
  [ .addSample "k3f9x2a" "p07qzd1" "m4m4w8c" "t1" "t2" "t3",
    .setPartyName "Mahesh", .setQuantity "25", .save "zz81hq0" "t4" "t4",
    .delete true (some "p07qzd1") ]

/-- The collection after pressing "Add Sample" on the empty collection. -/
def sampleState : AppState :=
  addSampleData "k3f9x2a" "p07qzd1" "m4m4w8c" "t1" "t2" "t3" (initialState "t0")

/-- The sample collection with a new party typed into the form. -/
def newOrderState : AppState :=
  { sampleState with form := { emptyForm "t4" with partyName := "Mahesh" } }

/-- The sample collection with a whitespace-only party in the form. -/
def blankNameState : AppState :=
  { sampleState with form := { emptyForm "t4" with partyName := " \t " } }

/-- The sample is added, "Edit" is clicked on its second order, the form is
filled with that order's data and a new quantityGiven, and "Save" is pressed. -/
def editThenSave : List Action :=
  [ .addSample "k3f9x2a" "p07qzd1" "m4m4w8c" "t1" "t2" "t3",
    .edit (some "p07qzd1"),
    .setPartyName "Govind", .setBrokerName "Ramesh", .setCommodity "Palmolien Oil",
    .setQuantity "200", .setQuantityGiven "75",
    .save "zz81hq0" "t5" "t5" ]

/-- Two orders of one party and broker are entered with the quantities
"Infinity" and "-Infinity". -/
def infiniteSaves : List Action :=
  [ .setPartyName "Govind", .setBrokerName "Ramesh", .setQuantity "Infinity",
    .save "k3f9x2a" "t1" "t1",
    .setPartyName "Govind", .setBrokerName "Ramesh", .setQuantity "-Infinity",
    .save "p07qzd1" "t2" "t2" ]

/-- Two orders of one party and broker with the quantities "0.2" and "0.1", and
an order of another party with quantity "0.958" and quantityGiven "3.0025". -/
def fractionSaves : List Action :=
  [ .setPartyName "Mahesh", .setBrokerName "Suresh", .setQuantity "0.958",
    .setQuantityGiven "3.0025", .save "m4m4w8c" "t1" "t1",
    .setPartyName "Govind", .setBrokerName "Ramesh", .setQuantity "0.1",
    .save "p07qzd1" "t2" "t2",
    .setPartyName "Govind", .setBrokerName "Ramesh", .setQuantity "0.2",
    .save "k3f9x2a" "t3" "t3" ]

/-- Two orders of the party Govind: one with the broker input left empty, one
with a single space typed into it. -/
def blankBrokerSaves : List Action :=
  [ .setPartyName "Govind", .save "k3f9x2a" "t1" "t1",
    .setPartyName "Govind", .setBrokerName " ", .save "p07qzd1" "t2" "t2" ]

/-- Three orders of three parties and brokers with pending 2, NaN (quantity
"Infinity", quantityGiven "1e400") and 1, entered in this order. -/
def nanPendingSaves : List Action :=
  [ .setPartyName "Govind", .setBrokerName "Anil", .setQuantity "2",
    .save "k3f9x2a" "t1" "t1",
    .setPartyName "Mahesh", .setBrokerName "Bharat", .setQuantity "Infinity",
    .setQuantityGiven "1e400", .save "p07qzd1" "t2" "t2",
    .setPartyName "Upendra", .setBrokerName "Chetan", .setQuantity "1",
    .save "m4m4w8c" "t3" "t3" ]

/-- The orders stored by a session started on the empty collection. -/
def ordersAfter (acts : List Action) : List Order :=
  (run parseFloatText printValue (initialState "t0") acts).orders

/-- The sales orders of the sample collection: (Govind, Ramesh, 500, 120) and
(Govind, Ramesh, 200, 50). -/
def sampleSales : List Order := salesOrders sampleState

/-- The sales orders of the sample collection after its second order is
deleted. -/
def sampleSalesAfterDelete : List Order :=
  salesOrders (handleDelete true (some "p07qzd1") sampleState)

/-- The purchase orders of the sample collection: (Upendra, Suresh, Cotton, 100, 40). -/
def samplePurchases : List Order := purchaseOrders sampleState

/-- The group of the two sample sales orders. -/
def sampleSalesGroup : Group :=
  { key := "ramesh||govind", broker := "Ramesh", party := "Govind", items := sampleSales,
    totals := { total := 700, given := 170, pending := 530 } }

/-- The group left after the second sample sales order is deleted. -/
def sampleSalesGroupAfterDelete : Group :=
  { key := "ramesh||govind", broker := "Ramesh", party := "Govind",
    items := sampleSalesAfterDelete,
    totals := { total := 500, given := 120, pending := 380 } }

/-- An order of party Govind through broker "Ramesh". -/
def upperCaseOrder : Order :=
  { id := some "k3f9x2a", type := "SALES", partyName := "Govind", brokerName := "Ramesh",
    commodity := "Cotton", quantity := 10, unit := "MT", quantityGiven := 4,
    rate := some (.str ""), timestamp := "t1", remarks := "", pending := some 6 }

/-- An order of party Govind through broker "ramesh". -/
def lowerCaseOrder : Order :=
  { id := some "p07qzd1", type := "SALES", partyName := "Govind", brokerName := "ramesh",
    commodity := "Cotton", quantity := 5, unit := "MT", quantityGiven := 5,
    rate := some (.str ""), timestamp := "t0", remarks := "", pending := some 0 }

/-- Two orders whose broker names differ only in letter case. -/
def mixedCaseOrders : List Order := [upperCaseOrder, lowerCaseOrder]

/-- The session that stores the two orders of `mixedCaseOrders`. -/
def mixedCaseSaves : List Action :=
  [ .setPartyName "Govind", .setBrokerName "ramesh", .setQuantity "5",
    .setQuantityGiven "5", .save "p07qzd1" "t1" "t1",
    .setPartyName "Govind", .setBrokerName "Ramesh", .setQuantity "10",
    .setQuantityGiven "4", .save "k3f9x2a" "t2" "t2" ]

/-- Three orders of three brokers; the first and the third have the same
pending quantity 5, the second has 7. -/
def tieOrders : List Order :=
  [ { id := some "k3f9x2a", type := "SALES", partyName := "Govind", brokerName := "Anil",
      commodity := "Cotton", quantity := 10, unit := "MT", quantityGiven := 5,
      rate := some (.str ""), timestamp := "t2", remarks := "", pending := some 5 },
    { id := some "p07qzd1", type := "SALES", partyName := "Mahesh", brokerName := "Bharat",
      commodity := "Crude Palm Oil", quantity := 9, unit := "MT", quantityGiven := 2,
      rate := some (.str ""), timestamp := "t1", remarks := "", pending := some 7 },
    { id := some "m4m4w8c", type := "SALES", partyName := "Upendra", brokerName := "Chetan",
      commodity := "RBD Refined Oil", quantity := 5, unit := "MT", quantityGiven := 0,
      rate := some (.str ""), timestamp := "t0", remarks := "", pending := some 5 } ]

/-- The session that stores the three orders of `tieOrders`. -/
def tieSaves : List Action :=
  [ .setPartyName "Upendra", .setBrokerName "Chetan", .setCommodity "RBD Refined Oil",
    .setQuantity "5", .save "m4m4w8c" "t1" "t1",
    .setPartyName "Mahesh", .setBrokerName "Bharat", .setCommodity "Crude Palm Oil",
    .setQuantity "9", .setQuantityGiven "2", .save "p07qzd1" "t2" "t2",
    .setPartyName "Govind", .setBrokerName "Anil", .setQuantity "10",
    .setQuantityGiven "5", .save "k3f9x2a" "t3" "t3" ]

/-- The key of `outstandingByType` as the specification words it: the
lowercased `partyName||commodity`, with no placeholder for an empty name. -/
def specOutstandingKey (lower : String → String) (o : Order) : String :=
  lower (o.partyName ++ "||" ++ o.commodity)

/-- The value of `JSON.parse` on the texts `[]`, `{}`, `null`, `true`, `false`
and on a text of decimal digits without a leading zero, and its failure on
text that does not start a JSON value; other texts are not used in the
examples. -/
def parseJsonLiteral (s : String) : Option Json :=
  if s = "[]" then some (.arr [])
  else if s = "{}" then some (.obj [])
  else if s = "null" then some .null
  else if s = "true" then some (.bool true)
  else if s = "false" then some (.bool false)
  else (parseDigits s).map Json.num

/-- The initial state with the Purchase tab selected and a purchase typed into
the form. -/
def purchaseTabState : AppState :=
  run parseFloatText printValue (initialState "t0")
    [.setTab "purchase", .setPartyName "Upendra", .setBrokerName "Suresh",
     .setQuantity "100", .setQuantityGiven "40"]

/-- The same state after the "Set Type" button is pressed. -/
def purchaseTypeSetState : AppState :=
  step parseFloatText printValue purchaseTabState .setType

/-- A form whose three numeric inputs hold text that is not a number. -/
def badNumbersState : AppState :=
  { sampleState with
    form := { emptyForm "t4" with partyName := "Mahesh", quantity := "abc",
                                  quantityGiven := "", rate := "n/a" } }

/-- The sample collection with the text "RAM" in the search box. -/
def filteredState : AppState := { sampleState with filterText := "RAM" }

/-! ## Basic facts about the string helpers -/

theorem string_eq_empty_iff (s : String) : s = "" ↔ s.data = [] := by
  constructor
  · rintro rfl; rfl
  · intro h
    cases s
    simp_all

theorem truthyStr_eq_true_iff (s : String) : truthyStr s = true ↔ s ≠ "" := by
  simp [truthyStr]

theorem truthyStr_eq_false_iff (s : String) : truthyStr s = false ↔ s = "" := by
  simp [truthyStr]

/-- The test `!form.partyName.trim()` succeeds exactly on blank names. -/
theorem truthyStr_trim (s : String) : truthyStr (trim s) = !isBlank s := by
  by_cases hb : isBlank s = true
  · have h1 : s.data.dropWhile isTrimChar = [] := by
      rw [List.dropWhile_eq_nil_iff]
      simpa [isBlank] using hb
    have h2 : trim s = "" := by simp [trim, h1]
    simp [hb, h2, truthyStr]
  · have h1 : s.data.dropWhile isTrimChar ≠ [] := by
      rw [Ne, List.dropWhile_eq_nil_iff]
      simpa [isBlank] using hb
    obtain ⟨c, l, hcl⟩ := List.exists_cons_of_ne_nil h1
    have hc : isTrimChar c = false := by
      have := List.head_dropWhile_not isTrimChar s.data h1
      simpa [hcl] using this
    have h3 : (c :: l).reverse.dropWhile isTrimChar ≠ [] := by
      rw [Ne, List.dropWhile_eq_nil_iff]
      simp only [List.mem_reverse, List.mem_cons, not_forall]
      exact ⟨c, Or.inl rfl, by simp [hc]⟩
    have h4 : trim s ≠ "" := by
      rw [Ne, string_eq_empty_iff]
      simpa [trim, hcl] using h3
    have h5 : truthyStr (trim s) = true := (truthyStr_eq_true_iff _).2 h4
    simp [h5, hb]

/-! ## Binary64 arithmetic -/

theorem pow2_eq_zpow (e : ℤ) : pow2 e = (2 : ℚ) ^ e := by
  unfold pow2
  split_ifs with h
  · obtain ⟨n, rfl⟩ := Int.eq_ofNat_of_zero_le h
    simp
  · have h2 : 0 ≤ -e := by omega
    obtain ⟨n, hn⟩ := Int.eq_ofNat_of_zero_le h2
    have he : e = -(n : ℤ) := by omega
    subst he
    simp

theorem pow2_pos (e : ℤ) : 0 < pow2 e := by
  rw [pow2_eq_zpow]; positivity

theorem pow2_add (a b : ℤ) : pow2 (a + b) = pow2 a * pow2 b := by
  simp only [pow2_eq_zpow]
  exact zpow_add₀ (by norm_num) a b

theorem pow2_le_pow2 {a b : ℤ} (h : a ≤ b) : pow2 a ≤ pow2 b := by
  simp only [pow2_eq_zpow]
  exact zpow_le_zpow_right₀ (by norm_num) h

theorem log2Fuel_spec : ∀ (fuel n : ℕ), n < 2 ^ fuel → n ≠ 0 →
    2 ^ log2Fuel fuel n ≤ n ∧ n < 2 ^ (log2Fuel fuel n + 1) := by
  intro fuel
  induction fuel with
  | zero => intro n h hn; simp at h; exact absurd h hn
  | succ fuel ih =>
    intro n h hn
    unfold log2Fuel
    split_ifs with h2
    · have : n = 1 := by omega
      subst this
      simp
    · have hdiv : n / 2 < 2 ^ fuel := by
        rw [Nat.div_lt_iff_lt_mul (by norm_num)]
        rw [pow_succ] at h
        exact h
      have hne : n / 2 ≠ 0 := by
        have : 1 ≤ n / 2 := by
          rw [Nat.le_div_iff_mul_le (by norm_num)]
          omega
        omega
      obtain ⟨h3, h4⟩ := ih (n / 2) hdiv hne
      constructor
      · rw [pow_succ]
        have := Nat.div_mul_le_self n 2
        calc 2 ^ log2Fuel fuel (n / 2) * 2 ≤ n / 2 * 2 := Nat.mul_le_mul_right 2 h3
          _ ≤ n := this
      · rw [pow_succ]
        have : n < (n / 2 + 1) * 2 := by omega
        calc n < (n / 2 + 1) * 2 := this
          _ ≤ 2 ^ (log2Fuel fuel (n / 2) + 1) * 2 := Nat.mul_le_mul_right 2 h4

theorem natLog2_spec (n : ℕ) (hn : n ≠ 0) :
    2 ^ natLog2 n ≤ n ∧ n < 2 ^ (natLog2 n + 1) :=
  log2Fuel_spec n n (Nat.lt_two_pow n) hn

/-- The exponent found by `floorLog2` is not too large: `2 ^ e ≤ a`. -/
theorem pow2_floorLog2_le (a : ℚ) (ha : 0 < a) : pow2 (floorLog2 a) ≤ a := by
  unfold floorLog2
  simp only
  split_ifs with h
  · exact h
  · have hnum : 0 < a.num := Rat.num_pos.2 ha
    have hden : a.den ≠ 0 := a.den_nz
    have hn0 : a.num.natAbs ≠ 0 := by
      intro h0
      have := Int.natAbs_eq_zero.1 h0
      omega
    obtain ⟨hn1, _⟩ := natLog2_spec a.num.natAbs hn0
    obtain ⟨_, hd2⟩ := natLog2_spec a.den hden
    have hnq : ((2 : ℚ) ^ natLog2 a.num.natAbs) ≤ (a.num : ℚ) := by
      have h1 : ((2 ^ natLog2 a.num.natAbs : ℕ) : ℚ) ≤ ((a.num.natAbs : ℕ) : ℚ) := by
        exact_mod_cast hn1
      have h2 : ((a.num.natAbs : ℕ) : ℚ) = (a.num : ℚ) := by
        rw [Nat.cast_natAbs, abs_of_pos hnum]
      rw [h2] at h1
      simpa using h1
    have hdq : (a.den : ℚ) ≤ (2 : ℚ) ^ (natLog2 a.den + 1) := by
      have h1 : ((a.den : ℕ) : ℚ) ≤ ((2 ^ (natLog2 a.den + 1) : ℕ) : ℚ) := by
        exact_mod_cast hd2.le
      simpa using h1
    have hdpos : (0 : ℚ) < a.den := by exact_mod_cast Nat.pos_of_ne_zero hden
    rw [pow2_eq_zpow]
    have hexp : ((natLog2 a.num.natAbs : ℤ) - (natLog2 a.den : ℤ) - 1)
        = (natLog2 a.num.natAbs : ℤ) - ((natLog2 a.den + 1 : ℕ) : ℤ) := by
      push_cast; ring
    rw [hexp, zpow_sub₀ (by norm_num : (2 : ℚ) ≠ 0), zpow_natCast, zpow_natCast]
    calc (2 : ℚ) ^ natLog2 a.num.natAbs / 2 ^ (natLog2 a.den + 1)
        ≤ (a.num : ℚ) / a.den :=
          div_le_div₀ (by exact_mod_cast hnum.le) hnq hdpos hdq
      _ = a := Rat.num_div_den a

theorem one_le_roundHalfEven (x : ℚ) (hx : 1 ≤ x) : 1 ≤ roundHalfEven x := by
  have hf : (1 : ℤ) ≤ ⌊x⌋ := Int.le_floor.2 (by exact_mod_cast hx)
  unfold roundHalfEven
  simp only
  split_ifs <;> omega

theorem ulpExp_ge (a : ℚ) : (-1074 : ℤ) ≤ ulpExp a := le_max_right _ _

theorem pow2_ulpExp_le (a : ℚ) (ha : pow2 (-1074) ≤ a) : pow2 (ulpExp a) ≤ a := by
  have hpos : 0 < a := lt_of_lt_of_le (pow2_pos _) ha
  unfold ulpExp
  rcases max_cases (floorLog2 a - 52) (-1074) with ⟨h, _⟩ | ⟨h, _⟩
  · rw [h]
    exact (pow2_le_pow2 (by omega)).trans (pow2_floorLog2_le a hpos)
  · rw [h]; exact ha

theorem roundMagnitude_pos (a : ℚ) (ha : pow2 (-1074) ≤ a) : 0 < roundMagnitude a := by
  have hx : 1 ≤ a / pow2 (ulpExp a) := by
    rw [le_div_iff₀ (pow2_pos _)]
    simpa using pow2_ulpExp_le a ha
  have hm := one_le_roundHalfEven _ hx
  unfold roundMagnitude
  apply mul_pos _ (pow2_pos _)
  have : (0 : ℤ) < roundHalfEven (a / pow2 (ulpExp a)) := by omega
  exact_mod_cast this

theorem onGrid_roundMagnitude (a : ℚ) : onGrid (roundMagnitude a) := by
  obtain ⟨n, hn⟩ := Int.eq_ofNat_of_zero_le (by have := ulpExp_ge a; omega :
    (0 : ℤ) ≤ ulpExp a + 1074)
  have hp : pow2 (ulpExp a) = ((2 ^ n : ℤ) : ℚ) * pow2 (-1074) := by
    have : ulpExp a = (n : ℤ) + (-1074) := by omega
    rw [this, pow2_add, pow2_eq_zpow (n : ℤ)]
    simp
  refine ⟨roundHalfEven (a / pow2 (ulpExp a)) * 2 ^ n, ?_⟩
  unfold roundMagnitude
  rw [hp]
  push_cast
  ring

theorem onGrid_neg (a : ℚ) (ha : onGrid a) : onGrid (-a) := by
  obtain ⟨k, rfl⟩ := ha
  exact ⟨-k, by push_cast; ring⟩

/-- Rounding never turns a difference of at least `2 ^ -1074` into zero, nor
changes its sign. -/
theorem keepsOrder_round64 (q : ℚ) (hq : pow2 (-1074) ≤ |q|) :
    keepsOrder (round64 q) = decide (q ≤ 0) := by
  have hg := pow2_pos (-1074)
  have hq0 : q ≠ 0 := by
    rintro rfl
    simp at hq
    linarith
  have hr := roundMagnitude_pos |q| hq
  unfold round64
  simp only [hq0, if_false]
  by_cases hneg : q < 0
  · have hle : q ≤ 0 := hneg.le
    split_ifs <;> simp [keepsOrder, hle, hr.le]
  · have hpos : 0 < q := lt_of_le_of_ne (not_lt.1 hneg) (Ne.symm hq0)
    have hnle : ¬ q ≤ 0 := not_le.2 hpos
    split_ifs <;> simp [keepsOrder, hnle, hr]

theorem onGrid_round64 (q r : ℚ) (h : round64 q = .fin r) : onGrid r := by
  unfold round64 at h
  split_ifs at h with h0 hov hneg hneg
  · injection h with h
    exact ⟨0, by simp [← h]⟩
  · injection h with h
    rw [← h]
    exact onGrid_neg _ (onGrid_roundMagnitude _)
  · injection h with h
    rw [← h]
    exact onGrid_roundMagnitude _

theorem abs_sub_ge_of_onGrid (a b : ℚ) (ha : onGrid a) (hb : onGrid b) (hne : b ≠ a) :
    pow2 (-1074) ≤ |b - a| := by
  obtain ⟨k, rfl⟩ := ha
  obtain ⟨j, rfl⟩ := hb
  have hg := pow2_pos (-1074)
  have hjk : j ≠ k := by
    rintro rfl
    exact hne rfl
  have h1 : (1 : ℚ) ≤ |((j - k : ℤ) : ℚ)| := by
    have : (1 : ℤ) ≤ |j - k| := Int.one_le_abs (sub_ne_zero.2 hjk)
    exact_mod_cast this
  have : (j : ℚ) * pow2 (-1074) - k * pow2 (-1074) = ((j - k : ℤ) : ℚ) * pow2 (-1074) := by
    push_cast; ring
  rw [this, abs_mul, abs_of_pos hg]
  calc pow2 (-1074) = 1 * pow2 (-1074) := (one_mul _).symm
    _ ≤ |((j - k : ℤ) : ℚ)| * pow2 (-1074) := mul_le_mul_of_nonneg_right h1 hg.le

/-- On regular numbers the comparator `b - a` orders exactly as `<=` does. -/
theorem keepsOrder_sub (x y : F64) (hx : x.Regular) (hy : y.Regular) :
    keepsOrder (y - x) = F64.le y x := by
  cases x with
  | nan => exact absurd hx (by simp [F64.Regular])
  | posInf => cases y <;> first | rfl | exact absurd hy (by simp [F64.Regular])
  | negInf => cases y <;> first | rfl | exact absurd hy (by simp [F64.Regular])
  | fin a =>
    cases y with
    | nan => exact absurd hy (by simp [F64.Regular])
    | posInf => rfl
    | negInf => rfl
    | fin b =>
      show keepsOrder (round64 (b - a)) = decide (b ≤ a)
      by_cases hab : b = a
      · subst hab
        simp [round64, keepsOrder]
      · rw [keepsOrder_round64 _ (abs_sub_ge_of_onGrid a b hx hy hab)]
        simp

/-- A number compared with itself never asks for a swap. -/
theorem keepsOrder_sub_self (x : F64) : keepsOrder (x - x) = true := by
  cases x with
  | fin a =>
    show keepsOrder (round64 (a - a)) = true
    simp [round64, keepsOrder]
  | _ => rfl

theorem F64.le_total_of_regular (x y : F64) (hx : x.Regular) (hy : y.Regular) :
    F64.le x y = true ∨ F64.le y x = true := by
  cases x <;> cases y <;> simp_all [F64.Regular, F64.le]
  exact le_total _ _

theorem F64.le_trans_bool (x y z : F64) (h1 : F64.le x y = true) (h2 : F64.le y z = true) :
    F64.le x z = true := by
  cases x <;> cases y <;> cases z <;> simp_all [F64.le]
  exact le_trans h1 h2

/-! ## Saving and deleting -/

theorem handleSave_of_blank (pf : String → F64) (u now rendered : String)
    (s : AppState) (h : isBlank s.form.partyName = true) :
    handleSave pf u now rendered s = (s, some "Please enter Buyer/Seller name.") := by
  simp [handleSave, truthyStr_trim, h]

theorem handleSave_of_not_blank (pf : String → F64) (u now rendered : String)
    (s : AppState) (h : isBlank s.form.partyName = false) :
    handleSave pf u now rendered s =
      ({ s with orders := saveUpdater (saveItem pf now s.form) u s.orders,
                form := emptyForm rendered, isEditing := false }, none) := by
  simp [handleSave, truthyStr_trim, h]

/-- Removing the orders with a given id from a collection with pairwise
distinct ids removes exactly one order when the id is stored. -/
theorem length_filter_id_ne (l : List Order) (i : Option String)
    (hnd : (ids l).Nodup) (hmem : i ∈ ids l) :
    (l.filter (fun p => p.id ≠ i)).length + 1 = l.length := by
  induction l with
  | nil => simp [ids] at hmem
  | cons a l ih =>
    simp only [ids, List.map_cons, List.nodup_cons, List.mem_cons] at hnd hmem
    by_cases ha : a.id = i
    · have hall : ∀ p ∈ l, p.id ≠ i := by
        intro p hp hpi
        exact hnd.1 (List.mem_map.2 ⟨p, hp, by rw [hpi, ha]⟩)
      have hfil : l.filter (fun p => p.id ≠ i) = l := by
        rw [List.filter_eq_self]
        intro p hp
        simpa using hall p hp
      simpa [List.filter_cons, ha] using hall
    · have hmem2 : i ∈ ids l := by
        rcases hmem with h | h
        · exact absurd h.symm ha
        · exact h
      have := ih hnd.2 hmem2
      simpa [List.filter_cons, ha] using this

theorem filter_id_ne_of_not_mem (l : List Order) (i : Option String)
    (hmem : i ∉ ids l) : l.filter (fun p => p.id ≠ i) = l := by
  rw [List.filter_eq_self]
  intro p hp
  have : p.id ≠ i := fun h => hmem (List.mem_map.2 ⟨p, hp, h⟩)
  simpa using this

/-- C1: when the form's partyName is empty or only whitespace, handleSave leaves
the order collection (indeed the whole state) as it was and reports the
validation failure through the alert. -/
theorem handleSave_blank_partyName_rejected (pf : String → F64)
    (u now rendered : String) (s : AppState)
    (hblank : ∀ c ∈ s.form.partyName.data, isTrimChar c = true) :
    (handleSave pf u now rendered s).1.orders = s.orders ∧
    (handleSave pf u now rendered s).1 = s ∧
    (handleSave pf u now rendered s).2 = some "Please enter Buyer/Seller name." := by
  have hb : isBlank s.form.partyName = true := by
    simpa [isBlank] using hblank
  rw [handleSave_of_blank pf u now rendered s hb]
  exact ⟨rfl, rfl, rfl⟩

/-- C2: when every stored order has an id, the form's partyName is not blank and
the form's id is unset, handleSave stores the saved order, carrying the id
returned by uid, in front of all previously stored orders, which keep their
content and order; the size grows by one and nothing is alerted. -/
theorem handleSave_new_order_prepended (pf : String → F64)
    (u now rendered : String) (s : AppState)
    (hids : ∀ o ∈ s.orders, o.id ≠ none)
    (hname : isBlank s.form.partyName = false)
    (hid : s.form.id = none) :
    (handleSave pf u now rendered s).1.orders =
      { saveItem pf now s.form with id := some u } :: s.orders ∧
    (handleSave pf u now rendered s).1.orders.length = s.orders.length + 1 ∧
    (handleSave pf u now rendered s).2 = none := by
  have hfil : s.orders.filter (fun p => p.id ≠ (saveItem pf now s.form).id) = s.orders := by
    rw [List.filter_eq_self]
    intro p hp
    simpa [saveItem, hid] using hids p hp
  have hfalsy : truthyId (saveItem pf now s.form).id = false := by
    simp [saveItem, hid, truthyId]
  rw [handleSave_of_not_blank pf u now rendered s hname]
  simp only [saveUpdater, hfil, hfalsy]
  simp

theorem handleSave_blank_partyName_rejected_witness :
    (∀ c ∈ blankNameState.form.partyName.data, isTrimChar c = true) ∧
    (handleSave parseFloatText "zz81hq0" "t5" "t4" blankNameState).1.orders
        = blankNameState.orders ∧
    (handleSave parseFloatText "zz81hq0" "t5" "t4" blankNameState).1 = blankNameState ∧
    (handleSave parseFloatText "zz81hq0" "t5" "t4" blankNameState).2
        = some "Please enter Buyer/Seller name." :=
  ⟨by decide,
   handleSave_blank_partyName_rejected parseFloatText "zz81hq0" "t5" "t4" blankNameState
     (by decide)⟩

theorem handleSave_new_order_prepended_witness :
    (∀ o ∈ newOrderState.orders, o.id ≠ none) ∧
    isBlank newOrderState.form.partyName = false ∧
    newOrderState.form.id = none ∧
    (handleSave parseFloatText "zz81hq0" "t5" "t4" newOrderState).1.orders
        = { saveItem parseFloatText "t5" newOrderState.form with id := some "zz81hq0" }
            :: newOrderState.orders ∧
    (handleSave parseFloatText "zz81hq0" "t5" "t4" newOrderState).1.orders.length
        = newOrderState.orders.length + 1 ∧
    (handleSave parseFloatText "zz81hq0" "t5" "t4" newOrderState).2 = none :=
  ⟨by decide, by decide, rfl,
   handleSave_new_order_prepended parseFloatText "zz81hq0" "t5" "t4" newOrderState
     (by decide) (by decide) rfl⟩

/-- What handleSave does with a form that carries the non-empty id of a stored
order: the order is replaced and moved to the front.  No event of the component
puts an id into the form (`run_form_id_none`). -/
theorem handleSave_replaces_stored_id (pf : String → F64)
    (u now rendered : String) (s : AppState) (i : String)
    (hnd : (ids s.orders).Nodup)
    (hname : isBlank s.form.partyName = false)
    (hid : s.form.id = some i) (hne : i ≠ "")
    (hmem : some i ∈ ids s.orders) :
    (handleSave pf u now rendered s).1.orders =
      saveItem pf now s.form :: s.orders.filter (fun p => p.id ≠ some i) ∧
    (saveItem pf now s.form).id = some i ∧
    (handleSave pf u now rendered s).1.orders.length = s.orders.length ∧
    (handleSave pf u now rendered s).2 = none := by
  have hitem : (saveItem pf now s.form).id = some i := by simp [saveItem, hid]
  have htruthy : truthyId (some i) = true := by
    simp [truthyId, truthyStr, hne]
  have hlen := length_filter_id_ne s.orders (some i) hnd hmem
  have horders : (handleSave pf u now rendered s).1.orders =
      saveItem pf now s.form :: s.orders.filter (fun p => p.id ≠ some i) := by
    rw [handleSave_of_not_blank pf u now rendered s hname]
    simp only [saveUpdater, hitem, htruthy, if_true]
  refine ⟨horders, hitem, ?_, ?_⟩
  · rw [horders, List.length_cons]
    exact hlen
  · rw [handleSave_of_not_blank pf u now rendered s hname]

/-- C4: on a collection with pairwise distinct ids, a confirmed handleDelete
keeps exactly the orders whose id differs from the given one, unchanged and in
their previous relative order; it removes one order when the id is stored and
none otherwise, so the size decreases by at most one. -/
theorem handleDelete_removes_matching (id : Option String) (s : AppState)
    (hnd : (ids s.orders).Nodup) :
    (handleDelete true id s).orders = s.orders.filter (fun x => x.id ≠ id) ∧
    (handleDelete true id s).orders.Sublist s.orders ∧
    (∀ o, o ∈ (handleDelete true id s).orders ↔ o ∈ s.orders ∧ o.id ≠ id) ∧
    (id ∈ ids s.orders →
      (handleDelete true id s).orders.length + 1 = s.orders.length) ∧
    (id ∉ ids s.orders → (handleDelete true id s).orders = s.orders) ∧
    s.orders.length ≤ (handleDelete true id s).orders.length + 1 ∧
    (handleDelete true id s).orders.length ≤ s.orders.length := by
  have hdel : (handleDelete true id s).orders = s.orders.filter (fun x => x.id ≠ id) := by
    simp [handleDelete]
  rw [hdel]
  refine ⟨rfl, List.filter_sublist _, ?_, ?_, ?_, ?_, List.length_filter_le _ _⟩
  · intro o
    simp [List.mem_filter]
  · intro hmem
    exact length_filter_id_ne s.orders id hnd hmem
  · intro hmem
    exact filter_id_ne_of_not_mem s.orders id hmem
  · by_cases hmem : id ∈ ids s.orders
    · exact (length_filter_id_ne s.orders id hnd hmem).ge
    · rw [filter_id_ne_of_not_mem s.orders id hmem]
      exact Nat.le_succ _

theorem handleDelete_removes_matching_witness :
    (ids sampleState.orders).Nodup ∧
    (handleDelete true (some "p07qzd1") sampleState).orders
        = sampleState.orders.filter (fun x => x.id ≠ some "p07qzd1") ∧
    (handleDelete true (some "p07qzd1") sampleState).orders.Sublist sampleState.orders ∧
    (∀ o, o ∈ (handleDelete true (some "p07qzd1") sampleState).orders ↔
      o ∈ sampleState.orders ∧ o.id ≠ some "p07qzd1") ∧
    (some "p07qzd1" ∈ ids sampleState.orders →
      (handleDelete true (some "p07qzd1") sampleState).orders.length + 1
        = sampleState.orders.length) ∧
    (some "p07qzd1" ∉ ids sampleState.orders →
      (handleDelete true (some "p07qzd1") sampleState).orders = sampleState.orders) ∧
    sampleState.orders.length
        ≤ (handleDelete true (some "p07qzd1") sampleState).orders.length + 1 ∧
    (handleDelete true (some "p07qzd1") sampleState).orders.length
        ≤ sampleState.orders.length :=
  ⟨by decide, handleDelete_removes_matching (some "p07qzd1") sampleState (by decide)⟩

/-! ## Invariants of the stored collection -/

/-- The order built by handleSave stores the pending figure computed from the
quantities it stores. -/
theorem saveItem_pending (pf : String → F64) (now : String) (form : Form) :
    (saveItem pf now form).pending =
      some (mathRound (((saveItem pf now form).quantity
        - (saveItem pf now form).quantityGiven) * 1000) / 1000) := rfl

/-- C5: pressing "Add Sample" on the empty collection stores three orders that
have no pending field at all, although their quantities (500/120, 200/50,
100/40) call for pending 380, 150 and 60. -/
theorem addSample_orders_lack_pending (pf : String → F64) (toStr : JSValue → String)
    (now u1 u2 u3 t1 t2 t3 : String) :
    (run pf toStr (initialState now) [.addSample u1 u2 u3 t1 t2 t3]).orders.map
        (fun o => (o.quantity, o.quantityGiven, o.pending))
      = [(500, 120, none), (200, 50, none), (100, 40, none)] ∧
    ∀ o ∈ (run pf toStr (initialState now) [.addSample u1 u2 u3 t1 t2 t3]).orders,
      o.pending ≠ some (mathRound ((o.quantity - o.quantityGiven) * 1000) / 1000) := by
  refine ⟨rfl, ?_⟩
  intro o ho
  simp only [run, List.foldl, step, addSampleData, sampleOrders, initialState,
    List.cons_append, List.nil_append, List.mem_cons, List.mem_singleton,
    List.not_mem_nil, or_false] at ho
  rcases ho with rfl | rfl | rfl <;> simp

theorem handleEdit_orders (toStr : JSValue → String) (id : Option String) (s : AppState) :
    (handleEdit toStr id s).orders = s.orders := by
  unfold handleEdit
  split <;> rfl

theorem saveUpdater_pending (pf : String → F64) (now u : String) (form : Form)
    (prev : List Order)
    (hprev : ∀ o ∈ prev,
      o.pending = some (mathRound ((o.quantity - o.quantityGiven) * 1000) / 1000)) :
    ∀ o ∈ saveUpdater (saveItem pf now form) u prev,
      o.pending = some (mathRound ((o.quantity - o.quantityGiven) * 1000) / 1000) := by
  intro o ho
  simp only [saveUpdater, List.mem_cons] at ho
  rcases ho with rfl | ho
  · split_ifs
    · exact saveItem_pending pf now form
    · exact saveItem_pending pf now form
  · exact hprev o (List.mem_filter.1 ho).1

/-- Every event other than "Add Sample" keeps the pending figures in step with
the stored quantities. -/
theorem step_pending (pf : String → F64) (toStr : JSValue → String) (s : AppState)
    (a : Action) (ha : a.isAddSample = false)
    (hs : ∀ o ∈ s.orders,
      o.pending = some (mathRound ((o.quantity - o.quantityGiven) * 1000) / 1000)) :
    ∀ o ∈ (step pf toStr s a).orders,
      o.pending = some (mathRound ((o.quantity - o.quantityGiven) * 1000) / 1000) := by
  cases a with
  | save u now rendered =>
    by_cases hb : truthyStr (trim s.form.partyName) = true
    · simp only [step, handleSave, hb, if_true]
      exact saveUpdater_pending pf now u s.form s.orders hs
    · simp only [step, handleSave, hb]
      exact hs
  | setCommodity v =>
    simp only [step]
    split_ifs <;> exact hs
  | setUnit v =>
    simp only [step]
    split_ifs <;> exact hs
  | delete confirmed id =>
    cases confirmed
    · simpa [step, handleDelete] using hs
    · simp only [step, handleDelete, if_true]
      intro o ho
      exact hs o (List.mem_filter.1 ho).1
  | addSample u1 u2 u3 t1 t2 t3 => simp [Action.isAddSample] at ha
  | clearAll => simp [step, clearAll]
  | _ => exact hs

/-- In a session without "Add Sample" every stored order carries the pending
figure round((quantity - quantityGiven) * 1000) / 1000 of its stored
quantities. -/
theorem run_pending_without_addSample (pf : String → F64) (toStr : JSValue → String)
    (acts : List Action) (hacts : ∀ a ∈ acts, a.isAddSample = false) :
    ∀ s : AppState,
      (∀ o ∈ s.orders,
        o.pending = some (mathRound ((o.quantity - o.quantityGiven) * 1000) / 1000)) →
      ∀ o ∈ (run pf toStr s acts).orders,
        o.pending = some (mathRound ((o.quantity - o.quantityGiven) * 1000) / 1000) := by
  induction acts with
  | nil => intro s hs; exact hs
  | cons a acts ih =>
    intro s hs
    exact ih (fun b hb => hacts b (List.mem_cons_of_mem _ hb)) (step pf toStr s a)
      (step_pending pf toStr s a (hacts a (List.mem_cons_self _ _)) hs)

theorem ids_filter_sublist (l : List Order) (p : Order → Bool) :
    (ids (l.filter p)).Sublist (ids l) :=
  (List.filter_sublist l).map _

theorem not_mem_ids_filter (l : List Order) (i : Option String) :
    i ∉ ids (l.filter (fun p => p.id ≠ i)) := by
  intro h
  obtain ⟨o, ho, hoi⟩ := List.mem_map.1 h
  have := (List.mem_filter.1 ho).2
  simp [hoi] at this

/-- The updater of handleSave keeps the ids pairwise distinct when the id it
may draw is new. -/
theorem saveUpdater_nodup (item : Order) (u : String) (prev : List Order)
    (hnd : (ids prev).Nodup)
    (hfresh : truthyId item.id = false → some u ∉ ids prev) :
    (ids (saveUpdater item u prev)).Nodup := by
  have hsub := ids_filter_sublist prev (fun p => p.id ≠ item.id)
  have hnd2 : (ids (prev.filter (fun p => p.id ≠ item.id))).Nodup := hnd.sublist hsub
  by_cases ht : truthyId item.id = true
  · simp only [saveUpdater, ht, if_true, ids, List.map_cons, List.nodup_cons]
    exact ⟨not_mem_ids_filter prev item.id, hnd2⟩
  · have hf : truthyId item.id = false := by simpa using ht
    simp only [saveUpdater, hf, ids, List.map_cons, List.nodup_cons]
    refine ⟨fun hmem => hfresh hf (hsub.subset hmem), hnd2⟩

/-- One event keeps the stored ids pairwise distinct when it draws only new
ids. -/
theorem step_nodup (pf : String → F64) (toStr : JSValue → String) (s : AppState)
    (a : Action) (hnd : (ids s.orders).Nodup) (hfresh : freshStep s a) :
    (ids (step pf toStr s a).orders).Nodup := by
  cases a with
  | save u now rendered =>
    by_cases hb : truthyStr (trim s.form.partyName) = true
    · simp only [step, handleSave, hb, if_true]
      exact saveUpdater_nodup _ u s.orders hnd (fun hf => hfresh hb hf)
    · simp only [step, handleSave, hb]
      exact hnd
  | setCommodity v =>
    simp only [step]
    split_ifs <;> exact hnd
  | setUnit v =>
    simp only [step]
    split_ifs <;> exact hnd
  | delete confirmed id =>
    cases confirmed
    · simpa [step, handleDelete] using hnd
    · simp only [step, handleDelete, if_true]
      exact hnd.sublist (ids_filter_sublist s.orders _)
  | addSample u1 u2 u3 t1 t2 t3 =>
    obtain ⟨h12, h13, h23, h1, h2, h3⟩ := hfresh
    simp only [step, addSampleData, sampleOrders, ids, List.cons_append, List.nil_append,
      List.map_cons, List.nodup_cons, List.mem_cons]
    simp only [ids] at h1 h2 h3 hnd
    refine ⟨?_, ?_, h3, hnd⟩
    · rintro (h | h | h)
      · exact h12 (Option.some.inj h)
      · exact h13 (Option.some.inj h)
      · exact h1 h
    · rintro (h | h)
      · exact h23 (Option.some.inj h)
      · exact h2 h
  | clearAll => simp [step, clearAll, ids]
  | _ => exact hnd

theorem run_nodup (pf : String → F64) (toStr : JSValue → String) (acts : List Action) :
    ∀ s : AppState, (ids s.orders).Nodup → freshRun pf toStr s acts →
      (ids (run pf toStr s acts).orders).Nodup := by
  induction acts with
  | nil => intro s hnd _; exact hnd
  | cons a acts ih =>
    intro s hnd hfresh
    exact ih (step pf toStr s a) (step_nodup pf toStr s a hnd hfresh.1) hfresh.2

/-- C6 fails as stated: two orders entered one after the other from the empty
collection receive the same id when uid returns the same token twice, and both
are stored. -/
theorem colliding_uid_duplicates_id :
    ids (run parseFloatText printValue (initialState "t0") collidingSaves).orders
        = [some "k3f9x2a", some "k3f9x2a"] ∧
    ¬ (ids (run parseFloatText printValue (initialState "t0") collidingSaves).orders).Nodup := by
  decide

/-- C6 (amended): in every collection reached from the empty collection by a
sequence of events in which each id returned by uid is different from the ids
stored at that moment (and the three ids of one add-sample are different from
each other), no two orders share the same id. -/
theorem reachable_ids_nodup (pf : String → F64) (toStr : JSValue → String)
    (now : String) (acts : List Action)
    (hfresh : freshRun pf toStr (initialState now) acts) :
    (ids (run pf toStr (initialState now) acts).orders).Nodup :=
  run_nodup pf toStr acts (initialState now) (by simp [initialState, ids]) hfresh

theorem reachable_ids_nodup_witness :
    freshRun parseFloatText printValue (initialState "t0") freshSession ∧
    (ids (run parseFloatText printValue (initialState "t0") freshSession).orders).Nodup :=
  have hfresh : freshRun parseFloatText printValue (initialState "t0") freshSession := by
    simp only [freshSession, freshRun, freshStep, and_true, true_and]
    decide
  ⟨hfresh, reachable_ids_nodup parseFloatText printValue "t0" freshSession hfresh⟩

/-! ## The edit path -/

/-- In every state reached from the initial one the form carries no id and every
stored order carries one. -/
theorem step_form_id_none (pf : String → F64) (toStr : JSValue → String) (s : AppState)
    (a : Action) (hform : s.form.id = none) (hids : ∀ o ∈ s.orders, o.id ≠ none) :
    (step pf toStr s a).form.id = none ∧ ∀ o ∈ (step pf toStr s a).orders, o.id ≠ none := by
  cases a with
  | save u now rendered =>
    by_cases hb : truthyStr (trim s.form.partyName) = true
    · simp only [step, handleSave, hb, if_true]
      refine ⟨rfl, ?_⟩
      intro o ho
      have hfalsy : truthyId (saveItem pf now s.form).id = false := by
        simp [saveItem, hform, truthyId]
      simp only [saveUpdater, hfalsy, List.mem_cons] at ho
      rcases ho with rfl | ho
      · simp
      · exact hids o (List.mem_filter.1 ho).1
    · simp only [step, handleSave, hb]
      exact ⟨hform, hids⟩
  | setCommodity v =>
    simp only [step]
    split_ifs <;> exact ⟨hform, hids⟩
  | setUnit v =>
    simp only [step]
    split_ifs <;> exact ⟨hform, hids⟩
  | delete confirmed id =>
    cases confirmed
    · exact ⟨hform, hids⟩
    · refine ⟨hform, ?_⟩
      intro o ho
      simp only [step, handleDelete, if_true] at ho
      exact hids o (List.mem_filter.1 ho).1
  | addSample u1 u2 u3 t1 t2 t3 =>
    refine ⟨hform, ?_⟩
    intro o ho
    simp only [step, addSampleData, sampleOrders, List.cons_append, List.nil_append,
      List.mem_cons] at ho
    rcases ho with rfl | rfl | rfl | ho
    · simp
    · simp
    · simp
    · exact hids o ho
  | clearAll => exact ⟨hform, by simp [step, clearAll]⟩
  | reset rendered => exact ⟨rfl, hids⟩
  | _ => exact ⟨hform, hids⟩

theorem run_form_id_none (pf : String → F64) (toStr : JSValue → String)
    (acts : List Action) :
    ∀ s : AppState, s.form.id = none → (∀ o ∈ s.orders, o.id ≠ none) →
      (run pf toStr s acts).form.id = none ∧
      ∀ o ∈ (run pf toStr s acts).orders, o.id ≠ none := by
  induction acts with
  | nil => intro s h1 h2; exact ⟨h1, h2⟩
  | cons a acts ih =>
    intro s h1 h2
    obtain ⟨h3, h4⟩ := step_form_id_none pf toStr s a h1 h2
    exact ih (step pf toStr s a) h3 h4

/-- In every state reached from the initial one, a save that is not rejected
adds an order: the collection never keeps its size, so no stored order is ever
replaced. -/
theorem reachable_save_adds_order (pf : String → F64) (toStr : JSValue → String)
    (now : String) (acts : List Action) (u t rendered : String)
    (hname : isBlank (run pf toStr (initialState now) acts).form.partyName = false) :
    (run pf toStr (initialState now) acts).form.id = none ∧
    (handleSave pf u t rendered (run pf toStr (initialState now) acts)).1.orders.length
      = (run pf toStr (initialState now) acts).orders.length + 1 := by
  obtain ⟨hform, hids⟩ := run_form_id_none pf toStr acts (initialState now) rfl
    (by simp [initialState])
  refine ⟨hform, ?_⟩
  have hfil : (run pf toStr (initialState now) acts).orders.filter
      (fun p => p.id ≠ (saveItem pf t (run pf toStr (initialState now) acts).form).id)
      = (run pf toStr (initialState now) acts).orders := by
    rw [List.filter_eq_self]
    intro p hp
    simpa [saveItem, hform] using hids p hp
  rw [handleSave_of_not_blank pf u t rendered _ hname]
  simp only [saveUpdater, hfil]
  split_ifs <;> simp

/-- C3: after "Add Sample", a click on "Edit" for the order p07qzd1 leaves the
state as it was, with no id in the form; the corrected figures typed next and
saved are stored as a fourth order under a new id, and the order p07qzd1 stays
as it was. -/
theorem edit_click_loads_no_order :
    step parseFloatText printValue sampleState (.edit (some "p07qzd1")) = sampleState ∧
    (run parseFloatText printValue (initialState "t0") editThenSave).orders.map
        (fun o => (o.id, o.quantity, o.quantityGiven))
      = [(some "zz81hq0", 200, 75), (some "k3f9x2a", 500, 120),
         (some "p07qzd1", 200, 50), (some "m4m4w8c", 100, 40)] ∧
    (run parseFloatText printValue (initialState "t0") editThenSave).orders.length
      = sampleState.orders.length + 1 := by
  refine ⟨rfl, by decide!, by decide!⟩

/-! ## The stable descending sort -/

section StableSort

variable {α : Type} (f : α → F64)

theorem arraySort_perm (cmp : α → α → F64) (l : List α) : (arraySort cmp l).Perm l :=
  List.perm_insertionSort _ l

theorem mem_arraySort (cmp : α → α → F64) (l : List α) (a : α) :
    a ∈ arraySort cmp l ↔ a ∈ l :=
  (arraySort_perm cmp l).mem_iff

theorem orderedInsert_desc_pairwise (a : α) (l : List α)
    (hl : l.Pairwise (fun x y => f y ≤ f x))
    (hreg : ∀ x ∈ a :: l, (f x).Regular) :
    (l.orderedInsert (fun a b => keepsOrder (f b - f a) = true) a).Pairwise
      (fun x y => f y ≤ f x) := by
  induction l with
  | nil => simp
  | cons b l ih =>
    have hra : (f a).Regular := hreg a (List.mem_cons_self _ _)
    have hrb : (f b).Regular := hreg b (List.mem_cons_of_mem _ (List.mem_cons_self _ _))
    obtain ⟨hbl, hl2⟩ := List.pairwise_cons.1 hl
    by_cases hab : keepsOrder (f b - f a) = true
    · rw [List.orderedInsert, if_pos hab]
      refine List.pairwise_cons.2 ⟨?_, hl⟩
      have hba : F64.le (f b) (f a) = true := by
        rw [← keepsOrder_sub (f a) (f b) hra hrb]; exact hab
      intro y hy
      rcases List.mem_cons.1 hy with rfl | hy
      · exact hba
      · exact F64.le_trans_bool _ _ _ (hbl y hy) hba
    · rw [List.orderedInsert, if_neg hab]
      have hab2 : F64.le (f a) (f b) = true := by
        rcases F64.le_total_of_regular (f a) (f b) hra hrb with h | h
        · exact h
        · rw [← keepsOrder_sub (f a) (f b) hra hrb] at h
          exact absurd h hab
      refine List.pairwise_cons.2 ⟨?_, ?_⟩
      · intro y hy
        rcases (List.mem_orderedInsert _).1 hy with rfl | hy
        · exact hab2
        · exact hbl y hy
      · apply ih hl2
        intro x hx
        rcases List.mem_cons.1 hx with rfl | hx
        · exact hra
        · exact hreg x (List.mem_cons_of_mem _ (List.mem_cons_of_mem _ hx))

/-- Sorting with the comparator `f b - f a` yields a sequence in which `f` never
increases, when no value of `f` is `NaN` and the finite ones are binary64
values. -/
theorem arraySort_desc_pairwise (l : List α) (hreg : ∀ x ∈ l, (f x).Regular) :
    (arraySort (fun a b => f b - f a) l).Pairwise (fun a b => f b ≤ f a) := by
  induction l with
  | nil => simp [arraySort]
  | cons a l ih =>
    have ih2 := ih (fun x hx => hreg x (List.mem_cons_of_mem _ hx))
    simp only [arraySort, List.insertionSort]
    apply orderedInsert_desc_pairwise f a _ ih2
    intro x hx
    rcases List.mem_cons.1 hx with rfl | hx
    · exact hreg _ (List.mem_cons_self _ _)
    · exact hreg x (List.mem_cons_of_mem _ ((List.mem_insertionSort _).1 hx))

theorem orderedInsert_desc_filter (v : F64) (a : α) (l : List α) :
    (l.orderedInsert (fun a b => keepsOrder (f b - f a) = true) a).filter (fun x => f x = v)
      = (a :: l).filter (fun x => f x = v) := by
  induction l with
  | nil => simp
  | cons b l ih =>
    by_cases hab : keepsOrder (f b - f a) = true
    · simp [List.orderedInsert, hab]
    · have hne : f b ≠ f a := by
        intro h
        rw [h, keepsOrder_sub_self] at hab
        exact hab rfl
      rw [List.orderedInsert, if_neg hab, List.filter_cons, ih]
      by_cases hav : f a = v
      · have hbv : f b ≠ v := fun h => hne (h.trans hav.symm)
        simp [List.filter_cons, hav, hbv]
      · simp [List.filter_cons, hav]

/-- The sort is stable: the entries with one and the same value of `f` keep
their order. -/
theorem arraySort_desc_filter (v : F64) (l : List α) :
    (arraySort (fun a b => f b - f a) l).filter (fun x => f x = v)
      = l.filter (fun x => f x = v) := by
  induction l with
  | nil => simp [arraySort]
  | cons a l ih =>
    have ih2 : (List.insertionSort (fun a b => keepsOrder (f b - f a) = true) l).filter
        (fun x => f x = v) = l.filter (fun x => f x = v) := ih
    simp only [arraySort, List.insertionSort]
    rw [orderedInsert_desc_filter, List.filter_cons, ih2, List.filter_cons]

/-- Two entries of the sorted sequence with equal value of `f` stand in the
order they had before sorting. -/
theorem arraySort_desc_stable (l : List α) (a b : α)
    (hsub : [a, b].Sublist (arraySort (fun a b => f b - f a) l)) (hab : f a = f b) :
    [a, b].Sublist l := by
  have h1 := hsub.filter (fun x => decide (f x = f a))
  rw [arraySort_desc_filter] at h1
  have h2 : [a, b].filter (fun x => decide (f x = f a)) = [a, b] := by
    simp [List.filter_cons, hab]
  rw [h2] at h1
  exact h1.trans (List.filter_sublist l)

end StableSort

/-! ## Keys in order of first encounter -/

theorem firstKeys_append_singleton (ks : List String) (k : String) :
    firstKeys (ks ++ [k]) =
      if k ∈ firstKeys ks then firstKeys ks else firstKeys ks ++ [k] := by
  simp [firstKeys, List.foldl_append]

theorem mem_firstKeys (ks : List String) : ∀ k : String, k ∈ firstKeys ks ↔ k ∈ ks := by
  induction ks using List.reverseRecOn with
  | nil => simp [firstKeys]
  | append_singleton ks a ih =>
    intro k
    rw [firstKeys_append_singleton]
    by_cases ha : a ∈ firstKeys ks
    · rw [if_pos ha, List.mem_append, List.mem_singleton, ih]
      constructor
      · exact Or.inl
      · rintro (h | rfl)
        · exact h
        · exact (ih k).1 ha
    · rw [if_neg ha, List.mem_append, List.mem_append, ih]

theorem nodup_firstKeys (ks : List String) : (firstKeys ks).Nodup := by
  induction ks using List.reverseRecOn with
  | nil => simp [firstKeys]
  | append_singleton ks a ih =>
    rw [firstKeys_append_singleton]
    by_cases ha : a ∈ firstKeys ks
    · rw [if_pos ha]; exact ih
    · rw [if_neg ha]
      refine List.Nodup.append ih (List.nodup_singleton a) ?_
      intro x hx hxa
      rw [List.mem_singleton] at hxa
      exact ha (hxa ▸ hx)

/-- The keys of `firstKeys` stand in the order of their first positions in the
input. -/
theorem pairwise_firstKeys (ks : List String) :
    (firstKeys ks).Pairwise (fun a b => ks.indexOf a < ks.indexOf b) := by
  induction ks using List.reverseRecOn with
  | nil => simp [firstKeys]
  | append_singleton ks a ih =>
    have hold : (firstKeys ks).Pairwise
        (fun x y => (ks ++ [a]).indexOf x < (ks ++ [a]).indexOf y) := by
      refine List.Pairwise.imp_of_mem ?_ ih
      intro x y hx hy hxy
      rw [List.indexOf_append_of_mem ((mem_firstKeys ks x).1 hx),
        List.indexOf_append_of_mem ((mem_firstKeys ks y).1 hy)]
      exact hxy
    rw [firstKeys_append_singleton]
    by_cases ha : a ∈ firstKeys ks
    · rw [if_pos ha]; exact hold
    · rw [if_neg ha, List.pairwise_append]
      refine ⟨hold, List.pairwise_singleton _ _, ?_⟩
      intro x hx y hy
      rw [List.mem_singleton] at hy
      subst hy
      have hxks : x ∈ ks := (mem_firstKeys ks x).1 hx
      have hyks : y ∉ ks := fun h => ha ((mem_firstKeys ks y).2 h)
      rw [List.indexOf_append_of_mem hxks, List.indexOf_append_of_not_mem hyks]
      have := List.indexOf_lt_length.2 hxks
      omega

/-! ## The grouping map of groupByBrokerParty -/

theorem groupInsert_of_mem (lower : String → String) (map : List GroupEntry) (o : Order)
    (h : groupKey lower o ∈ map.map (fun g => g.key)) :
    groupInsert lower map o =
      map.map (fun g =>
        if g.key = groupKey lower o then { g with items := g.items ++ [o] } else g) := by
  have hany : map.any (fun g => decide (g.key = groupKey lower o)) = true := by
    obtain ⟨g, hg, hk⟩ := List.mem_map.1 h
    exact List.any_eq_true.2 ⟨g, hg, by simpa using hk⟩
  simp only [groupInsert, hany, if_true]

theorem groupInsert_of_not_mem (lower : String → String) (map : List GroupEntry) (o : Order)
    (h : groupKey lower o ∉ map.map (fun g => g.key)) :
    groupInsert lower map o =
      map ++ [{ key := groupKey lower o, broker := orDash o.brokerName,
                party := orDash o.partyName, items := [o] }] := by
  have hne : ∀ g ∈ map, g.key ≠ groupKey lower o := by
    intro g hg hk
    exact h (List.mem_map.2 ⟨g, hg, hk⟩)
  have hany : map.any (fun g => decide (g.key = groupKey lower o)) = false := by
    rw [List.any_eq_false]
    intro g hg
    simpa using hne g hg
  have hmap : map.map (fun g =>
      if g.key = groupKey lower o then { g with items := g.items ++ [o] } else g) = map := by
    conv_rhs => rw [← List.map_id map]
    apply List.map_congr_left
    intro g hg
    simp [hne g hg]
  simp only [groupInsert, hany]
  rw [if_neg (by simp), List.map_append, hmap]
  simp

theorem groupInsert_keys (lower : String → String) (map : List GroupEntry) (o : Order) :
    (groupInsert lower map o).map (fun g => g.key) =
      if groupKey lower o ∈ map.map (fun g => g.key) then map.map (fun g => g.key)
      else map.map (fun g => g.key) ++ [groupKey lower o] := by
  by_cases h : groupKey lower o ∈ map.map (fun g => g.key)
  · rw [if_pos h, groupInsert_of_mem lower map o h, List.map_map]
    apply List.map_congr_left
    intro g _
    by_cases hk : g.key = groupKey lower o <;> simp [hk]
  · rw [if_neg h, groupInsert_of_not_mem lower map o h]
    simp

/-- The keys of the grouping map are the keys of the input in order of first
encounter. -/
theorem group_entries_keys (lower : String → String) (l : List Order) :
    (l.foldl (groupInsert lower) []).map (fun g => g.key)
      = firstKeys (l.map (groupKey lower)) := by
  induction l using List.reverseRecOn with
  | nil => simp [firstKeys]
  | append_singleton l o ih =>
    rw [List.foldl_append, List.map_append, List.map_singleton, firstKeys_append_singleton,
      ← ih]
    exact groupInsert_keys lower _ o

/-- Every entry of the grouping map holds the input orders with its key, in
input order, and the labels of the first of them. -/
theorem group_entries_spec (lower : String → String) (l : List Order) :
    ∀ g ∈ l.foldl (groupInsert lower) [],
      g.items = l.filter (fun o => groupKey lower o = g.key) ∧
      ∃ o, l.find? (fun o => groupKey lower o = g.key) = some o ∧
        g.broker = orDash o.brokerName ∧ g.party = orDash o.partyName := by
  induction l using List.reverseRecOn with
  | nil => simp
  | append_singleton l o ih =>
    intro g hg
    rw [List.foldl_append] at hg
    simp only [List.foldl_cons, List.foldl_nil] at hg
    by_cases h : groupKey lower o ∈ (l.foldl (groupInsert lower) []).map (fun g => g.key)
    · rw [groupInsert_of_mem lower _ o h] at hg
      obtain ⟨g0, hg0, rfl⟩ := List.mem_map.1 hg
      obtain ⟨hitems, o1, hfind, hb, hp⟩ := ih g0 hg0
      by_cases hk : g0.key = groupKey lower o
      · simp only [hk, if_true]
        refine ⟨?_, o1, ?_, hb, hp⟩
        · rw [List.filter_append, hitems, hk]
          simp
        · rw [List.find?_append, ← hk, hfind]
          rfl
      · simp only [hk, if_false]
        refine ⟨?_, o1, ?_, hb, hp⟩
        · rw [List.filter_append, hitems]
          have : ¬ groupKey lower o = g0.key := fun h' => hk h'.symm
          simp [this]
        · rw [List.find?_append, hfind]
          rfl
    · rw [groupInsert_of_not_mem lower _ o h] at hg
      rcases List.mem_append.1 hg with hg0 | hnew
      · obtain ⟨hitems, o1, hfind, hb, hp⟩ := ih g hg0
        have hk : ¬ groupKey lower o = g.key := by
          intro hk
          exact h (List.mem_map.2 ⟨g, hg0, hk.symm⟩)
        refine ⟨?_, o1, ?_, hb, hp⟩
        · rw [List.filter_append, hitems]
          simp [hk]
        · rw [List.find?_append, hfind]
          rfl
      · rw [List.mem_singleton] at hnew
        subst hnew
        have hnone : ∀ o' ∈ l, ¬ groupKey lower o' = groupKey lower o := by
          intro o' ho' hk
          apply h
          rw [group_entries_keys, mem_firstKeys, ← hk]
          exact List.mem_map_of_mem _ ho'
        have hfil : l.filter (fun o' => groupKey lower o' = groupKey lower o) = [] := by
          rw [List.filter_eq_nil_iff]
          intro o' ho'
          simpa using hnone o' ho'
        have hfind : l.find? (fun o' => groupKey lower o' = groupKey lower o) = none := by
          rw [List.find?_eq_none]
          intro o' ho'
          simpa using hnone o' ho'
        refine ⟨?_, o, ?_, rfl, rfl⟩
        · simp only [List.filter_append, hfil]
          simp
        · simp only [List.find?_append, hfind]
          simp

/-! ## Groups and their totals -/

theorem numOrZero_of_ne_nan (x : F64) (hx : x ≠ .nan) : numOrZero x = x := by
  unfold numOrZero
  split_ifs with h
  · rcases h with h | h
    · exact absurd h hx
    · exact h.symm
  · rfl

theorem numOrZero_ne_nan (x : F64) : numOrZero x ≠ .nan := by
  unfold numOrZero
  split_ifs with h
  · intro h0; cases h0
  · intro h0; exact h (Or.inl h0)

theorem foldl_totals (items : List Order) (a b : F64) :
    items.foldl
        (fun (acc : F64 × F64) it =>
          (acc.1 + numOrZero it.quantity, acc.2 + numOrZero it.quantityGiven))
        (a, b)
      = (items.foldl (fun acc o => acc + numOrZero o.quantity) a,
         items.foldl (fun acc o => acc + numOrZero o.quantityGiven) b) := by
  induction items generalizing a b with
  | nil => rfl
  | cons it items ih =>
    simp only [List.foldl_cons]
    exact ih _ _

theorem sumLeft_map (items : List Order) (f : Order → F64) :
    sumLeft (items.map f) = items.foldl (fun acc o => acc + f o) 0 := by
  simp [sumLeft, List.foldl_map]

theorem groupTotals_total (items : List Order) :
    (groupTotals items).total = sumLeft (items.map (fun o => numOrZero o.quantity)) := by
  rw [sumLeft_map]
  simp only [groupTotals]
  exact congrArg Prod.fst (foldl_totals items 0 0)

theorem groupTotals_given (items : List Order) :
    (groupTotals items).given
      = sumLeft (items.map (fun o => numOrZero o.quantityGiven)) := by
  rw [sumLeft_map]
  simp only [groupTotals]
  exact congrArg Prod.snd (foldl_totals items 0 0)

theorem groupTotals_pending (items : List Order) :
    (groupTotals items).pending =
      mathRound (((groupTotals items).total - (groupTotals items).given) * 1000) / 1000 :=
  rfl

theorem mem_groupValues (lower : String → String) (l : List Order) (g : Group) :
    g ∈ groupValues lower l ↔
      ∃ e ∈ l.foldl (groupInsert lower) [],
        g = { key := e.key, broker := e.broker, party := e.party, items := e.items,
              totals := groupTotals e.items } := by
  simp only [groupValues, List.mem_map]
  constructor
  · rintro ⟨e, he, rfl⟩; exact ⟨e, he, rfl⟩
  · rintro ⟨e, he, rfl⟩; exact ⟨e, he, rfl⟩

theorem mem_groupByBrokerParty (lower : String → String) (l : List Order) (g : Group) :
    g ∈ groupByBrokerParty lower l ↔ g ∈ groupValues lower l :=
  mem_arraySort _ _ g

theorem groupValues_keys (lower : String → String) (l : List Order) :
    (groupValues lower l).map (fun g => g.key) = firstKeys (l.map (groupKey lower)) := by
  rw [← group_entries_keys, groupValues, List.map_map]
  rfl

/-- What a group of the result holds: the input orders with its key, the labels
of the first of them, and the totals of its members. -/
theorem groupValues_spec (lower : String → String) (l : List Order) (g : Group)
    (hg : g ∈ groupValues lower l) :
    g.items = l.filter (fun o => groupKey lower o = g.key) ∧
    (∃ o, l.find? (fun o => groupKey lower o = g.key) = some o ∧
      g.broker = orDash o.brokerName ∧ g.party = orDash o.partyName) ∧
    g.totals = groupTotals g.items := by
  obtain ⟨e, he, rfl⟩ := (mem_groupValues lower l g).1 hg
  obtain ⟨h1, h2⟩ := group_entries_spec lower l e he
  exact ⟨h1, h2, rfl⟩

/-- Two groups of the result with the same key are the same group. -/
theorem groupValues_key_inj (lower : String → String) (l : List Order) (g₁ g₂ : Group)
    (h₁ : g₁ ∈ groupValues lower l) (h₂ : g₂ ∈ groupValues lower l)
    (hk : g₁.key = g₂.key) : g₁ = g₂ := by
  have hnd : ((groupValues lower l).map (fun g => g.key)).Nodup := by
    rw [groupValues_keys]; exact nodup_firstKeys _
  exact List.inj_on_of_nodup_map hnd h₁ h₂ hk

/-- C7 fails as stated: for the two stored orders with quantity Infinity and
-Infinity, the group's total is NaN and so is its pending, while
computePending(total, given) reads the NaN total as 0 and returns 0. -/
theorem group_pending_differs_from_computePending :
    (ordersAfter infiniteSaves).map (fun o => (o.brokerName, o.partyName, o.quantity))
      = [("Ramesh", "Govind", .negInf), ("Ramesh", "Govind", .posInf)] ∧
    (groupByBrokerParty asciiLower (ordersAfter infiniteSaves)).map
        (fun g => (g.key, g.totals.total, g.totals.given, g.totals.pending))
      = [("ramesh||govind", .nan, 0, .nan)] ∧
    (groupByBrokerParty asciiLower (ordersAfter infiniteSaves)).map
        (fun g => computePending parseFloatText (.num g.totals.total) (.num g.totals.given))
      = [0] ∧
    ∃ g ∈ groupByBrokerParty asciiLower (ordersAfter infiniteSaves),
      g.totals.pending
        ≠ computePending parseFloatText (.num g.totals.total) (.num g.totals.given) := by
  refine ⟨by decide!, by decide!, by decide!, by decide!⟩

/-- C7 (amended): in every group returned by groupByBrokerParty, totals.total is
the left-to-right binary64 sum of the members' quantity and totals.given that of
the members' quantityGiven, each read as `parseFloat(x) || 0`, which is the
quantity itself unless it is NaN; totals.pending is
round((total - given) * 1000) / 1000 in binary64, and it is
computePending(totals.total, totals.given) whenever neither total is NaN. -/
theorem groupByBrokerParty_totals (pf : String → F64) (lower : String → String)
    (l : List Order) (g : Group) (hg : g ∈ groupByBrokerParty lower l) :
    g.totals.total = sumLeft (g.items.map (fun o => numOrZero o.quantity)) ∧
    g.totals.given = sumLeft (g.items.map (fun o => numOrZero o.quantityGiven)) ∧
    ((∀ o ∈ g.items, o.quantity ≠ .nan ∧ o.quantityGiven ≠ .nan) →
      g.totals.total = sumLeft (g.items.map (fun o => o.quantity)) ∧
      g.totals.given = sumLeft (g.items.map (fun o => o.quantityGiven))) ∧
    g.totals.pending = mathRound ((g.totals.total - g.totals.given) * 1000) / 1000 ∧
    (g.totals.total ≠ .nan → g.totals.given ≠ .nan →
      g.totals.pending
        = computePending pf (.num g.totals.total) (.num g.totals.given)) := by
  have hg2 := (mem_groupByBrokerParty lower l g).1 hg
  obtain ⟨_, _, htot⟩ := groupValues_spec lower l g hg2
  rw [htot]
  refine ⟨groupTotals_total _, groupTotals_given _, ?_, groupTotals_pending _, ?_⟩
  · intro hnum
    rw [groupTotals_total, groupTotals_given]
    constructor
    · congr 1
      apply List.map_congr_left
      intro o ho
      exact numOrZero_of_ne_nan _ (hnum o ho).1
    · congr 1
      apply List.map_congr_left
      intro o ho
      exact numOrZero_of_ne_nan _ (hnum o ho).2
  · intro ht hgiv
    simp only [computePending, parseFloatOrZero, numOrZero_of_ne_nan _ ht,
      numOrZero_of_ne_nan _ hgiv]
    exact groupTotals_pending _

theorem sampleSales_grouped :
    groupByBrokerParty asciiLower sampleSales = [sampleSalesGroup] := by
  decide!

theorem sampleSalesAfterDelete_grouped :
    groupByBrokerParty asciiLower sampleSalesAfterDelete = [sampleSalesGroupAfterDelete] := by
  decide!

theorem groupByBrokerParty_totals_witness :
    sampleSalesGroup ∈ groupByBrokerParty asciiLower sampleSales ∧
    (sampleSalesGroup.totals.total
        = sumLeft (sampleSalesGroup.items.map (fun o => numOrZero o.quantity)) ∧
      sampleSalesGroup.totals.given
        = sumLeft (sampleSalesGroup.items.map (fun o => numOrZero o.quantityGiven)) ∧
      ((∀ o ∈ sampleSalesGroup.items, o.quantity ≠ .nan ∧ o.quantityGiven ≠ .nan) →
        sampleSalesGroup.totals.total
          = sumLeft (sampleSalesGroup.items.map (fun o => o.quantity)) ∧
        sampleSalesGroup.totals.given
          = sumLeft (sampleSalesGroup.items.map (fun o => o.quantityGiven))) ∧
      sampleSalesGroup.totals.pending
        = mathRound ((sampleSalesGroup.totals.total - sampleSalesGroup.totals.given) * 1000)
            / 1000 ∧
      (sampleSalesGroup.totals.total ≠ .nan → sampleSalesGroup.totals.given ≠ .nan →
        sampleSalesGroup.totals.pending
          = computePending parseFloatText (.num sampleSalesGroup.totals.total)
              (.num sampleSalesGroup.totals.given))) ∧
    groupByBrokerParty asciiLower sampleSales = [sampleSalesGroup] ∧
    sampleSalesGroup.totals = { total := 700, given := 170, pending := 530 } ∧
    groupByBrokerParty asciiLower sampleSalesAfterDelete = [sampleSalesGroupAfterDelete] ∧
    sampleSalesGroupAfterDelete.totals = { total := 500, given := 120, pending := 380 } ∧
    (groupByBrokerParty asciiLower (ordersAfter fractionSaves)).map
        (fun g => (g.key, g.totals.total, g.totals.given, g.totals.pending))
      = [("ramesh||govind", .fin (5404319552844596 / 18014398509481984), 0,
            parseFloatText "0.3"),
         ("suresh||mahesh", parseFloatText "0.958", parseFloatText "3.0025",
            parseFloatText "-2.045")] ∧
    F64.fin (5404319552844596 / 18014398509481984) ≠ parseFloatText "0.3" ∧
    parseFloatText "-2.045" ≠ parseFloatText "-2.044" :=
  have hmem : sampleSalesGroup ∈ groupByBrokerParty asciiLower sampleSales := by
    rw [sampleSales_grouped]; exact List.mem_singleton.2 rfl
  ⟨hmem, groupByBrokerParty_totals parseFloatText asciiLower sampleSales sampleSalesGroup hmem,
   sampleSales_grouped, rfl, sampleSalesAfterDelete_grouped, rfl, by decide!, by decide!,
   by decide!⟩

/-- Every input order has a group with its key in the result. -/
theorem exists_group_of_mem (lower : String → String) (l : List Order) (o : Order)
    (ho : o ∈ l) :
    ∃ g ∈ groupByBrokerParty lower l, g.key = groupKey lower o ∧ o ∈ g.items := by
  have hk : groupKey lower o ∈ (groupValues lower l).map (fun g => g.key) := by
    rw [groupValues_keys, mem_firstKeys]
    exact List.mem_map_of_mem _ ho
  obtain ⟨g, hg, hgk⟩ := List.mem_map.1 hk
  refine ⟨g, (mem_groupByBrokerParty lower l g).2 hg, hgk, ?_⟩
  rw [(groupValues_spec lower l g hg).1, List.mem_filter]
  exact ⟨ho, by simpa using hgk.symm⟩

theorem caseVariant_iff (a b : String) :
    caseVariant a b = true ↔ a.data.map Char.toLower = b.data.map Char.toLower := by
  simp [caseVariant]

theorem orDash_data (s : String) :
    (orDash s).data = if s.data = [] then "-".data else s.data := by
  by_cases h : s = ""
  · subst h
    rfl
  · have h2 : s.data ≠ [] := fun h3 => h ((string_eq_empty_iff s).2 h3)
    simp [orDash, truthyStr, h, h2]

/-- Case variants of the broker and party names give a case variant of the text
that is lowercased into the key. -/
theorem caseVariant_keyText (b₁ p₁ b₂ p₂ : String)
    (hb : caseVariant b₁ b₂ = true) (hp : caseVariant p₁ p₂ = true) :
    caseVariant (orDash b₁ ++ "||" ++ orDash p₁) (orDash b₂ ++ "||" ++ orDash p₂) = true := by
  rw [caseVariant_iff] at hb hp ⊢
  have hdash : ∀ x y : String, x.data.map Char.toLower = y.data.map Char.toLower →
      (orDash x).data.map Char.toLower = (orDash y).data.map Char.toLower := by
    intro x y hxy
    rw [orDash_data, orDash_data]
    by_cases hx : x.data = []
    · have hy : y.data = [] := by
        rw [hx] at hxy
        exact List.map_eq_nil_iff.1 hxy.symm
      simp [hx, hy]
    · have hy : y.data ≠ [] := by
        intro hy
        rw [hy] at hxy
        exact hx (List.map_eq_nil_iff.1 hxy)
      simp [hx, hy, hxy]
  simp only [String.data_append, List.map_append, hdash b₁ b₂ hb, hdash p₁ p₂ hp]

theorem asciiLower_of_caseVariant (a b : String) (h : caseVariant a b = true) :
    asciiLower a = asciiLower b := by
  rw [caseVariant_iff] at h
  simp [asciiLower, h]

/-- C8 fails as stated: two stored orders of the party Govind, one with an empty
broker and one with the broker " ", have the same key when "-" stands in for
every blank name, yet they are put into two groups, keyed " ||govind" and
"-||govind". -/
theorem blank_broker_kept_apart :
    (ordersAfter blankBrokerSaves).map (fun o => (o.brokerName, o.partyName))
      = [(" ", "Govind"), ("", "Govind")] ∧
    (ordersAfter blankBrokerSaves).map (fun o => isBlank o.brokerName) = [true, true] ∧
    (ordersAfter blankBrokerSaves).map (specGroupKey asciiLower)
      = ["-||govind", "-||govind"] ∧
    (groupByBrokerParty asciiLower (ordersAfter blankBrokerSaves)).map
        (fun g => (g.key, g.broker, g.items.map (fun o => o.id)))
      = [(" ||govind", " ", [some "p07qzd1"]), ("-||govind", "-", [some "k3f9x2a"])] ∧
    ¬ ∃ g ∈ groupByBrokerParty asciiLower (ordersAfter blankBrokerSaves),
        g.items = (ordersAfter blankBrokerSaves).filter
          (fun o => specGroupKey asciiLower o = specGroupKey asciiLower
            ((ordersAfter blankBrokerSaves).headD upperCaseOrder)) := by
  refine ⟨by decide!, by decide!, by decide!, by decide!, by decide!⟩

/-- C8 (amended): each group returned by groupByBrokerParty has as members
exactly the input orders whose key (lowercase of brokerName-or-"-" + "||" +
partyName-or-"-", the "-" standing in for an empty name only, a name of white
space being kept) equals the group's key, in input order, and is not empty;
every input order is a member of exactly one group; two input orders with the
same key are members of one group, and so are, when lowercasing makes no
difference between texts that differ only in letter case, two input orders whose
broker and party names differ only in letter case. -/
theorem groupByBrokerParty_members (lower : String → String) (l : List Order) :
    (∀ o : Order, groupKey lower o =
        lower ((if o.brokerName = "" then "-" else o.brokerName) ++ "||" ++
               (if o.partyName = "" then "-" else o.partyName))) ∧
    (∀ g ∈ groupByBrokerParty lower l,
        g.items = l.filter (fun o => groupKey lower o = g.key) ∧ g.items ≠ []) ∧
    (∀ o ∈ l, ∃! g, g ∈ groupByBrokerParty lower l ∧ o ∈ g.items) ∧
    (∀ o₁ ∈ l, ∀ o₂ ∈ l, groupKey lower o₁ = groupKey lower o₂ →
        ∃ g ∈ groupByBrokerParty lower l, o₁ ∈ g.items ∧ o₂ ∈ g.items) ∧
    ((∀ a b : String, caseVariant a b = true → lower a = lower b) →
      ∀ o₁ ∈ l, ∀ o₂ ∈ l, caseVariant o₁.brokerName o₂.brokerName = true →
        caseVariant o₁.partyName o₂.partyName = true →
        ∃ g ∈ groupByBrokerParty lower l, o₁ ∈ g.items ∧ o₂ ∈ g.items) := by
  have hitems : ∀ g ∈ groupByBrokerParty lower l,
      g.items = l.filter (fun o => groupKey lower o = g.key) := fun g hg =>
    (groupValues_spec lower l g ((mem_groupByBrokerParty lower l g).1 hg)).1
  have hkey : ∀ g ∈ groupByBrokerParty lower l, ∀ o ∈ g.items, groupKey lower o = g.key := by
    intro g hg o ho
    rw [hitems g hg, List.mem_filter] at ho
    simpa using ho.2
  have hsame : ∀ o₁ ∈ l, ∀ o₂ ∈ l, groupKey lower o₁ = groupKey lower o₂ →
      ∃ g ∈ groupByBrokerParty lower l, o₁ ∈ g.items ∧ o₂ ∈ g.items := by
    intro o₁ ho₁ o₂ ho₂ hk
    obtain ⟨g, hg, hgk, hog⟩ := exists_group_of_mem lower l o₁ ho₁
    refine ⟨g, hg, hog, ?_⟩
    rw [hitems g hg, List.mem_filter]
    exact ⟨ho₂, by simpa using hk.symm.trans hgk.symm⟩
  refine ⟨?_, ?_, ?_, hsame, ?_⟩
  · intro o
    simp only [groupKey, orDash, truthyStr]
    by_cases hb : o.brokerName = "" <;> by_cases hp : o.partyName = "" <;> simp [hb, hp]
  · intro g hg
    refine ⟨hitems g hg, ?_⟩
    have hg2 := (mem_groupByBrokerParty lower l g).1 hg
    obtain ⟨hi, ⟨o, hfind, _, _⟩, _⟩ := groupValues_spec lower l g hg2
    have hmem : o ∈ g.items := by
      rw [hi, List.mem_filter]
      exact ⟨List.mem_of_find?_eq_some hfind,
        @List.find?_some _ (fun o => decide (groupKey lower o = g.key)) o l hfind⟩
    exact List.ne_nil_of_mem hmem
  · intro o ho
    obtain ⟨g, hg, _, hog⟩ := exists_group_of_mem lower l o ho
    refine ⟨g, ⟨hg, hog⟩, ?_⟩
    rintro g2 ⟨hg2, hog2⟩
    apply groupValues_key_inj lower l g2 g ((mem_groupByBrokerParty lower l g2).1 hg2)
      ((mem_groupByBrokerParty lower l g).1 hg)
    rw [← hkey g2 hg2 o hog2, ← hkey g hg o hog]
  · intro hcase o₁ ho₁ o₂ ho₂ hb hp
    apply hsame o₁ ho₁ o₂ ho₂
    exact hcase _ _ (caseVariant_keyText _ _ _ _ hb hp)

theorem groupByBrokerParty_members_witness :
    (∀ a b : String, caseVariant a b = true → asciiLower a = asciiLower b) ∧
    caseVariant upperCaseOrder.brokerName lowerCaseOrder.brokerName = true ∧
    caseVariant upperCaseOrder.partyName lowerCaseOrder.partyName = true ∧
    upperCaseOrder.brokerName ≠ lowerCaseOrder.brokerName ∧
    groupKey asciiLower upperCaseOrder = "ramesh||govind" ∧
    groupKey asciiLower lowerCaseOrder = "ramesh||govind" ∧
    ∃ g ∈ groupByBrokerParty asciiLower mixedCaseOrders,
      upperCaseOrder ∈ g.items ∧ lowerCaseOrder ∈ g.items :=
  ⟨asciiLower_of_caseVariant, by decide, by decide, by decide, by decide, by decide,
   (groupByBrokerParty_members asciiLower mixedCaseOrders).2.2.2.2
     asciiLower_of_caseVariant upperCaseOrder (by decide) lowerCaseOrder (by decide)
     (by decide) (by decide)⟩

/-! ## Sorting by pending -/

theorem round64_ne_nan (q : ℚ) : round64 q ≠ .nan := by
  unfold round64
  split_ifs <;> intro h <;> cases h

theorem regular_round64 (q : ℚ) : (round64 q).Regular := by
  cases h : round64 q with
  | nan => exact absurd h (round64_ne_nan q)
  | posInf => trivial
  | negInf => trivial
  | fin r => exact onGrid_round64 q r h

/-- A quotient by 1000 is `NaN` or a regular number. -/
theorem div_thousand_regular (x : F64) (h : x / 1000 ≠ .nan) : (x / 1000).Regular := by
  cases x with
  | nan => exact absurd rfl h
  | posInf =>
    have : (F64.posInf / 1000 : F64) = .posInf := by decide!
    rw [this]; trivial
  | negInf =>
    have : (F64.negInf / 1000 : F64) = .negInf := by decide!
    rw [this]; trivial
  | fin a =>
    have : (F64.fin a / 1000 : F64) = round64 (a / 1000) := by
      show F64.div (F64.fin a) (F64.fin ((1000 : ℕ) : ℚ)) = _
      simp [F64.div]
    rw [this]
    exact regular_round64 _

theorem groupByBrokerParty_sorted_stable (lower : String → String) (l : List Order)
    (hnan : ∀ g ∈ groupByBrokerParty lower l, g.totals.pending ≠ .nan) :
    (groupByBrokerParty lower l).Pairwise
        (fun a b => b.totals.pending ≤ a.totals.pending) ∧
    ∀ g₁ g₂ : Group, [g₁, g₂].Sublist (groupByBrokerParty lower l) →
      g₁.totals.pending = g₂.totals.pending →
      (l.map (groupKey lower)).indexOf g₁.key < (l.map (groupKey lower)).indexOf g₂.key := by
  have hreg : ∀ g ∈ groupValues lower l, g.totals.pending.Regular := by
    intro g hg
    have h1 := hnan g ((mem_groupByBrokerParty lower l g).2 hg)
    obtain ⟨_, _, htot⟩ := groupValues_spec lower l g hg
    rw [htot, groupTotals_pending] at h1 ⊢
    exact div_thousand_regular _ h1
  refine ⟨arraySort_desc_pairwise (fun g : Group => g.totals.pending) _ hreg, ?_⟩
  intro g₁ g₂ hsub heq
  have h1 : [g₁, g₂].Sublist (groupValues lower l) :=
    arraySort_desc_stable (fun g : Group => g.totals.pending) _ g₁ g₂ hsub heq
  have h2 := h1.map (fun g => g.key)
  rw [groupValues_keys] at h2
  have h3 := (pairwise_firstKeys (l.map (groupKey lower))).sublist h2
  simpa using h3

/-! ## The aggregation map of outstandingByType -/

theorem outstandingInsert_of_mem (lower : String → String)
    (map : List (String × OutstandingEntry)) (o : Order)
    (h : outstandingKey lower o ∈ map.map (fun e => e.1)) :
    outstandingInsert lower map o =
      map.map (fun e =>
        if e.1 = outstandingKey lower o then
          (e.1, { e.2 with total := e.2.total + numOrZero o.quantity,
                           given := e.2.given + numOrZero o.quantityGiven })
        else e) := by
  have hany : map.any (fun e => decide (e.1 = outstandingKey lower o)) = true := by
    obtain ⟨e, he, hk⟩ := List.mem_map.1 h
    exact List.any_eq_true.2 ⟨e, he, by simpa using hk⟩
  simp only [outstandingInsert, hany, if_true, List.map_map]
  apply List.map_congr_left
  intro e _
  by_cases hk : e.1 = outstandingKey lower o <;> simp [hk]

theorem outstandingInsert_of_not_mem (lower : String → String)
    (map : List (String × OutstandingEntry)) (o : Order)
    (h : outstandingKey lower o ∉ map.map (fun e => e.1)) :
    outstandingInsert lower map o =
      map ++ [(outstandingKey lower o,
               { party := orDash o.partyName, commodity := orDash o.commodity,
                 total := 0 + numOrZero o.quantity,
                 given := 0 + numOrZero o.quantityGiven })] := by
  have hne : ∀ e ∈ map, e.1 ≠ outstandingKey lower o := by
    intro e he hk
    exact h (List.mem_map.2 ⟨e, he, hk⟩)
  have hany : map.any (fun e => decide (e.1 = outstandingKey lower o)) = false := by
    rw [List.any_eq_false]
    intro e he
    simpa using hne e he
  have hmap : ∀ f : OutstandingEntry → OutstandingEntry,
      map.map (fun e => if e.1 = outstandingKey lower o then (e.1, f e.2) else e) = map := by
    intro f
    conv_rhs => rw [← List.map_id map]
    apply List.map_congr_left
    intro e he
    simp [hne e he]
  simp only [outstandingInsert, hany]
  rw [if_neg (by simp), List.map_append,
    hmap (fun x => { x with total := x.total + numOrZero o.quantity }), List.map_append,
    hmap (fun x => { x with given := x.given + numOrZero o.quantityGiven })]
  simp

theorem outstandingInsert_keys (lower : String → String)
    (map : List (String × OutstandingEntry)) (o : Order) :
    (outstandingInsert lower map o).map (fun e => e.1) =
      if outstandingKey lower o ∈ map.map (fun e => e.1) then map.map (fun e => e.1)
      else map.map (fun e => e.1) ++ [outstandingKey lower o] := by
  by_cases h : outstandingKey lower o ∈ map.map (fun e => e.1)
  · rw [if_pos h, outstandingInsert_of_mem lower map o h, List.map_map]
    apply List.map_congr_left
    intro e _
    by_cases hk : e.1 = outstandingKey lower o <;> simp [hk]
  · rw [if_neg h, outstandingInsert_of_not_mem lower map o h]
    simp

/-- The keys of the aggregation map are the keys of the input in order of first
encounter. -/
theorem outstanding_entries_keys (lower : String → String) (l : List Order) :
    (l.foldl (outstandingInsert lower) []).map (fun e => e.1)
      = firstKeys (l.map (outstandingKey lower)) := by
  induction l using List.reverseRecOn with
  | nil => simp [firstKeys]
  | append_singleton l o ih =>
    rw [List.foldl_append, List.map_append, List.map_singleton, firstKeys_append_singleton,
      ← ih]
    exact outstandingInsert_keys lower _ o

/-- Every entry of the aggregation map carries the labels of the first input
order with its key and the left-to-right sums over all input orders with its
key. -/
theorem outstanding_entries_spec (lower : String → String) (l : List Order) :
    ∀ e ∈ l.foldl (outstandingInsert lower) [],
      (∃ o, l.find? (fun o => outstandingKey lower o = e.1) = some o ∧
        e.2.party = orDash o.partyName ∧ e.2.commodity = orDash o.commodity) ∧
      e.2.total
        = (l.filter (fun o => outstandingKey lower o = e.1)).foldl
            (fun acc o => acc + numOrZero o.quantity) 0 ∧
      e.2.given
        = (l.filter (fun o => outstandingKey lower o = e.1)).foldl
            (fun acc o => acc + numOrZero o.quantityGiven) 0 := by
  induction l using List.reverseRecOn with
  | nil => simp
  | append_singleton l o ih =>
    intro e he
    rw [List.foldl_append] at he
    simp only [List.foldl_cons, List.foldl_nil] at he
    by_cases h : outstandingKey lower o ∈
        (l.foldl (outstandingInsert lower) []).map (fun e => e.1)
    · rw [outstandingInsert_of_mem lower _ o h] at he
      obtain ⟨e0, he0, rfl⟩ := List.mem_map.1 he
      obtain ⟨⟨o1, hfind, hp, hc⟩, htot, hgiv⟩ := ih e0 he0
      by_cases hk : e0.1 = outstandingKey lower o
      · simp only [hk, if_true]
        refine ⟨⟨o1, ?_, hp, hc⟩, ?_, ?_⟩
        · rw [List.find?_append, ← hk, hfind]
          rfl
        · rw [List.filter_append, ← hk, List.foldl_append, ← htot]
          simp [hk]
        · rw [List.filter_append, ← hk, List.foldl_append, ← hgiv]
          simp [hk]
      · have hk2 : ¬ outstandingKey lower o = e0.1 := fun h' => hk h'.symm
        simp only [hk, if_false]
        refine ⟨⟨o1, ?_, hp, hc⟩, ?_, ?_⟩
        · rw [List.find?_append, hfind]
          rfl
        · rw [List.filter_append, htot]
          simp [hk2]
        · rw [List.filter_append, hgiv]
          simp [hk2]
    · rw [outstandingInsert_of_not_mem lower _ o h] at he
      rcases List.mem_append.1 he with he0 | hnew
      · obtain ⟨⟨o1, hfind, hp, hc⟩, htot, hgiv⟩ := ih e he0
        have hk2 : ¬ outstandingKey lower o = e.1 := by
          intro hk
          exact h (List.mem_map.2 ⟨e, he0, hk.symm⟩)
        refine ⟨⟨o1, ?_, hp, hc⟩, ?_, ?_⟩
        · rw [List.find?_append, hfind]
          rfl
        · rw [List.filter_append, htot]
          simp [hk2]
        · rw [List.filter_append, hgiv]
          simp [hk2]
      · rw [List.mem_singleton] at hnew
        subst hnew
        have hnone : ∀ o' ∈ l, ¬ outstandingKey lower o' = outstandingKey lower o := by
          intro o' ho' hk
          apply h
          rw [outstanding_entries_keys, mem_firstKeys, ← hk]
          exact List.mem_map_of_mem _ ho'
        have hfil : l.filter (fun o' => outstandingKey lower o' = outstandingKey lower o)
            = [] := by
          rw [List.filter_eq_nil_iff]
          intro o' ho'
          simpa using hnone o' ho'
        have hfind : l.find? (fun o' => outstandingKey lower o' = outstandingKey lower o)
            = none := by
          rw [List.find?_eq_none]
          intro o' ho'
          simpa using hnone o' ho'
        refine ⟨⟨o, ?_, rfl, rfl⟩, ?_, ?_⟩
        · simp only [List.find?_append, hfind]
          simp
        · simp only [List.filter_append, hfil]
          simp
        · simp only [List.filter_append, hfil]
          simp

/-! ## Aggregates -/

theorem outstanding_entry_key (lower : String → String) (l : List Order) :
    ∀ e ∈ l.foldl (outstandingInsert lower) [],
      lower (e.2.party ++ "||" ++ e.2.commodity) = e.1 := by
  intro e he
  obtain ⟨⟨o, hfind, hp, hc⟩, _, _⟩ := outstanding_entries_spec lower l e he
  have hk := @List.find?_some _ (fun o => decide (outstandingKey lower o = e.1)) o l hfind
  rw [hp, hc]
  simpa [outstandingKey] using hk

theorem mem_outstandingByType (lower : String → String) (l : List Order) (a : Aggregate) :
    a ∈ outstandingByType lower l ↔ a ∈ outstandingValues lower l :=
  mem_arraySort _ _ a

theorem outstandingValues_keys (lower : String → String) (l : List Order) :
    (outstandingValues lower l).map (aggregateKey lower)
      = firstKeys (l.map (outstandingKey lower)) := by
  rw [← outstanding_entries_keys, outstandingValues, List.map_map]
  apply List.map_congr_left
  intro e he
  exact outstanding_entry_key lower l e he

/-- What an aggregate of the result holds. -/
theorem outstandingValues_spec (lower : String → String) (l : List Order) (a : Aggregate)
    (ha : a ∈ outstandingValues lower l) :
    (∃ o, l.find? (fun o => outstandingKey lower o = aggregateKey lower a) = some o ∧
      a.party = orDash o.partyName ∧ a.commodity = orDash o.commodity) ∧
    a.total = sumLeft ((l.filter (fun o => outstandingKey lower o = aggregateKey lower a)).map
        (fun o => numOrZero o.quantity)) ∧
    a.given = sumLeft ((l.filter (fun o => outstandingKey lower o = aggregateKey lower a)).map
        (fun o => numOrZero o.quantityGiven)) ∧
    a.pending = mathRound ((a.total - a.given) * 1000) / 1000 := by
  obtain ⟨e, he, rfl⟩ := List.mem_map.1 ha
  have hk := outstanding_entry_key lower l e he
  obtain ⟨h1, h2, h3⟩ := outstanding_entries_spec lower l e he
  have hk2 : aggregateKey lower
      { party := e.2.party, commodity := e.2.commodity, total := e.2.total,
        given := e.2.given,
        pending := mathRound ((e.2.total - e.2.given) * 1000) / 1000 } = e.1 := hk
  rw [hk2, sumLeft_map, sumLeft_map]
  exact ⟨h1, h2, h3, rfl⟩

theorem outstandingByType_sorted_stable (lower : String → String) (l : List Order)
    (hnan : ∀ a ∈ outstandingByType lower l, a.pending ≠ .nan) :
    (outstandingByType lower l).Pairwise (fun a b => b.pending ≤ a.pending) ∧
    ∀ a₁ a₂ : Aggregate, [a₁, a₂].Sublist (outstandingByType lower l) →
      a₁.pending = a₂.pending →
      (l.map (outstandingKey lower)).indexOf (aggregateKey lower a₁)
        < (l.map (outstandingKey lower)).indexOf (aggregateKey lower a₂) := by
  have hreg : ∀ a ∈ outstandingValues lower l, a.pending.Regular := by
    intro a ha
    have h1 := hnan a ((mem_outstandingByType lower l a).2 ha)
    obtain ⟨_, _, _, hp⟩ := outstandingValues_spec lower l a ha
    rw [hp] at h1 ⊢
    exact div_thousand_regular _ h1
  refine ⟨arraySort_desc_pairwise (fun a : Aggregate => a.pending) _ hreg, ?_⟩
  intro a₁ a₂ hsub heq
  have h1 : [a₁, a₂].Sublist (outstandingValues lower l) :=
    arraySort_desc_stable (fun a : Aggregate => a.pending) _ a₁ a₂ hsub heq
  have h2 := h1.map (aggregateKey lower)
  rw [outstandingValues_keys] at h2
  have h3 := (pairwise_firstKeys (l.map (outstandingKey lower))).sublist h2
  simpa using h3

theorem F64.le_nan_right (x : F64) : F64.le x .nan = false := by
  cases x <;> rfl

theorem F64.le_nan_left (x : F64) : F64.le .nan x = false := by
  cases x <;> rfl

/-- A sequence in non-increasing order that holds an entry whose value is NaN
holds nothing else: no comparison with NaN is true. -/
theorem pairwise_le_nan {α : Type} (f : α → F64) (l : List α)
    (h : l.Pairwise (fun a b => f b ≤ f a)) (x : α) (hx : x ∈ l) (hnan : f x = .nan) :
    l.length ≤ 1 := by
  cases l with
  | nil => simp
  | cons a t =>
    cases t with
    | nil => simp
    | cons b t =>
      exfalso
      obtain ⟨hhead, _⟩ := List.pairwise_cons.1 h
      rcases List.mem_cons.1 hx with rfl | hx2
      · have h1 : F64.le (f b) (f x) = true := hhead b (List.mem_cons_self _ _)
        rw [hnan, F64.le_nan_right] at h1
        cases h1
      · have h1 : F64.le (f x) (f a) = true := hhead x hx2
        rw [hnan, F64.le_nan_left] at h1
        cases h1

/-- C9 fails as stated: three orders are entered with the quantities 2,
"Infinity" (with quantityGiven "1e400") and 1; the middle one has pending NaN,
and both aggregations return the pendings in the order 1, NaN, 2, which is
not non-increasing; no arrangement of these entries is. -/
theorem nan_pending_not_sorted :
    (ordersAfter nanPendingSaves).map
        (fun o => (o.partyName, o.quantity, o.quantityGiven, o.pending))
      = [("Upendra", 1, 0, some 1), ("Mahesh", .posInf, .posInf, some .nan),
         ("Govind", 2, 0, some 2)] ∧
    (groupByBrokerParty asciiLower (ordersAfter nanPendingSaves)).map
        (fun g => (g.key, g.totals.pending))
      = [("chetan||upendra", 1), ("bharat||mahesh", .nan), ("anil||govind", 2)] ∧
    (outstandingByType asciiLower (ordersAfter nanPendingSaves)).map
        (fun a => (a.party, a.pending))
      = [("Upendra", 1), ("Mahesh", .nan), ("Govind", 2)] ∧
    ¬ (groupByBrokerParty asciiLower (ordersAfter nanPendingSaves)).Pairwise
        (fun a b => b.totals.pending ≤ a.totals.pending) ∧
    ¬ (outstandingByType asciiLower (ordersAfter nanPendingSaves)).Pairwise
        (fun a b => b.pending ≤ a.pending) ∧
    (∀ arr : List Group, arr.Perm (groupByBrokerParty asciiLower (ordersAfter nanPendingSaves)) →
      ¬ arr.Pairwise (fun a b => b.totals.pending ≤ a.totals.pending)) ∧
    (∀ arr : List Aggregate,
      arr.Perm (outstandingByType asciiLower (ordersAfter nanPendingSaves)) →
      ¬ arr.Pairwise (fun a b => b.pending ≤ a.pending)) := by
  have hg : ∀ arr : List Group,
      arr.Perm (groupByBrokerParty asciiLower (ordersAfter nanPendingSaves)) →
      ¬ arr.Pairwise (fun a b => b.totals.pending ≤ a.totals.pending) := by
    intro arr hperm hpw
    obtain ⟨x, hx, hnan⟩ : ∃ x ∈ groupByBrokerParty asciiLower (ordersAfter nanPendingSaves),
        x.totals.pending = .nan := by decide!
    have hlen : (groupByBrokerParty asciiLower (ordersAfter nanPendingSaves)).length = 3 := by
      decide!
    have h1 := pairwise_le_nan (fun g : Group => g.totals.pending) arr hpw x
      (hperm.mem_iff.2 hx) hnan
    rw [hperm.length_eq, hlen] at h1
    omega
  have ha : ∀ arr : List Aggregate,
      arr.Perm (outstandingByType asciiLower (ordersAfter nanPendingSaves)) →
      ¬ arr.Pairwise (fun a b => b.pending ≤ a.pending) := by
    intro arr hperm hpw
    obtain ⟨x, hx, hnan⟩ : ∃ x ∈ outstandingByType asciiLower (ordersAfter nanPendingSaves),
        x.pending = .nan := by decide!
    have hlen : (outstandingByType asciiLower (ordersAfter nanPendingSaves)).length = 3 := by
      decide!
    have h1 := pairwise_le_nan (fun a : Aggregate => a.pending) arr hpw x
      (hperm.mem_iff.2 hx) hnan
    rw [hperm.length_eq, hlen] at h1
    omega
  exact ⟨by decide!, by decide!, by decide!, hg _ (List.Perm.refl _), ha _ (List.Perm.refl _),
    hg, ha⟩

/-- C9 (amended): when no group returned by groupByBrokerParty has a pending
that is NaN, the returned sequence is in non-increasing order of totals.pending
and whenever one group stands before another with the same pending, its key was
first encountered earlier in the input; and the same holds of the aggregates
returned by outstandingByType and their pending (the key of an aggregate being
recovered from its labels) when none of them has a pending that is NaN. -/
theorem aggregations_sorted_and_stable (lower : String → String) (l : List Order) :
    ((∀ g ∈ groupByBrokerParty lower l, g.totals.pending ≠ .nan) →
      (groupByBrokerParty lower l).Pairwise
        (fun a b => b.totals.pending ≤ a.totals.pending) ∧
      ∀ g₁ g₂ : Group, [g₁, g₂].Sublist (groupByBrokerParty lower l) →
        g₁.totals.pending = g₂.totals.pending →
        (l.map (groupKey lower)).indexOf g₁.key
          < (l.map (groupKey lower)).indexOf g₂.key) ∧
    ((∀ a ∈ outstandingByType lower l, a.pending ≠ .nan) →
      (outstandingByType lower l).Pairwise (fun a b => b.pending ≤ a.pending) ∧
      ∀ a₁ a₂ : Aggregate, [a₁, a₂].Sublist (outstandingByType lower l) →
        a₁.pending = a₂.pending →
        (l.map (outstandingKey lower)).indexOf (aggregateKey lower a₁)
          < (l.map (outstandingKey lower)).indexOf (aggregateKey lower a₂)) :=
  ⟨groupByBrokerParty_sorted_stable lower l, outstandingByType_sorted_stable lower l⟩

theorem aggregations_sorted_and_stable_witness :
    ordersAfter tieSaves = tieOrders ∧
    (groupByBrokerParty asciiLower tieOrders).map (fun g => (g.key, g.totals.pending))
      = [("bharat||mahesh", 7), ("anil||govind", 5), ("chetan||upendra", 5)] ∧
    (outstandingByType asciiLower tieOrders).map (fun a => (a.party, a.pending))
      = [("Mahesh", 7), ("Govind", 5), ("Upendra", 5)] ∧
    (∀ g ∈ groupByBrokerParty asciiLower tieOrders, g.totals.pending ≠ .nan) ∧
    (∀ a ∈ outstandingByType asciiLower tieOrders, a.pending ≠ .nan) ∧
    (groupByBrokerParty asciiLower tieOrders).Pairwise
        (fun a b => b.totals.pending ≤ a.totals.pending) ∧
    (outstandingByType asciiLower tieOrders).Pairwise (fun a b => b.pending ≤ a.pending) ∧
    (groupByBrokerParty asciiLower (ordersAfter fractionSaves)).map
        (fun g => (g.key, g.totals.pending))
      = [("ramesh||govind", parseFloatText "0.3"),
         ("suresh||mahesh", parseFloatText "-2.045")] ∧
    (groupByBrokerParty asciiLower (ordersAfter fractionSaves)).Pairwise
        (fun a b => b.totals.pending ≤ a.totals.pending) :=
  have h1 : ∀ g ∈ groupByBrokerParty asciiLower tieOrders, g.totals.pending ≠ .nan := by
    decide!
  have h2 : ∀ a ∈ outstandingByType asciiLower tieOrders, a.pending ≠ .nan := by
    decide!
  ⟨by decide!, by decide!, by decide!, h1, h2,
   ((aggregations_sorted_and_stable asciiLower tieOrders).1 h1).1,
   ((aggregations_sorted_and_stable asciiLower tieOrders).2 h2).1,
   by decide!,
   ((aggregations_sorted_and_stable asciiLower (ordersAfter fractionSaves)).1
      (by decide!)).1⟩

/-! ## The orders a session can store -/

theorem mem_COMMODITIES_ne_empty (v : String) (h : v ∈ COMMODITIES) : v ≠ "" := by
  intro hv
  subst hv
  revert h
  decide

theorem partyName_ne_empty_of_truthy_trim (n : String)
    (h : truthyStr (trim n) = true) : n ≠ "" := by
  intro hn
  subst hn
  revert h
  decide

/-- Every event keeps the commodity of the form non-empty, and every stored
order with a non-empty partyName and commodity and with quantities that are not
NaN. -/
theorem step_orders_wellFormed (pf : String → F64) (toStr : JSValue → String)
    (s : AppState) (a : Action) (hform : s.form.commodity ≠ "")
    (hwf : ∀ o ∈ s.orders, o.partyName ≠ "" ∧ o.commodity ≠ "" ∧
      o.quantity ≠ .nan ∧ o.quantityGiven ≠ .nan) :
    (step pf toStr s a).form.commodity ≠ "" ∧
    ∀ o ∈ (step pf toStr s a).orders, o.partyName ≠ "" ∧ o.commodity ≠ "" ∧
      o.quantity ≠ .nan ∧ o.quantityGiven ≠ .nan := by
  cases a with
  | save u now rendered =>
    by_cases hb : truthyStr (trim s.form.partyName) = true
    · simp only [step, handleSave, hb, if_true]
      refine ⟨by simp [emptyForm], ?_⟩
      intro o ho
      have hitem : ∀ i : Option String,
          ({ saveItem pf now s.form with id := i } : Order).partyName ≠ "" ∧
          ({ saveItem pf now s.form with id := i } : Order).commodity ≠ "" ∧
          ({ saveItem pf now s.form with id := i } : Order).quantity ≠ .nan ∧
          ({ saveItem pf now s.form with id := i } : Order).quantityGiven ≠ .nan :=
        fun _ => ⟨partyName_ne_empty_of_truthy_trim _ hb, hform,
          numOrZero_ne_nan _, numOrZero_ne_nan _⟩
      simp only [saveUpdater, List.mem_cons] at ho
      rcases ho with rfl | ho
      · split_ifs
        · exact hitem (saveItem pf now s.form).id
        · exact hitem (some u)
      · exact hwf o (List.mem_filter.1 ho).1
    · simp only [step, handleSave, hb]
      exact ⟨hform, hwf⟩
  | setCommodity v =>
    simp only [step]
    split_ifs with hv
    · exact ⟨mem_COMMODITIES_ne_empty v hv, hwf⟩
    · exact ⟨hform, hwf⟩
  | setUnit v =>
    simp only [step]
    split_ifs <;> exact ⟨hform, hwf⟩
  | delete confirmed id =>
    cases confirmed
    · exact ⟨hform, hwf⟩
    · refine ⟨hform, ?_⟩
      intro o ho
      simp only [step, handleDelete, if_true] at ho
      exact hwf o (List.mem_filter.1 ho).1
  | addSample u1 u2 u3 t1 t2 t3 =>
    refine ⟨hform, ?_⟩
    intro o ho
    simp only [step, addSampleData, sampleOrders, List.cons_append, List.nil_append,
      List.mem_cons] at ho
    rcases ho with rfl | rfl | rfl | ho
    · exact ⟨by simp, by simp, fun h => F64.noConfusion h, fun h => F64.noConfusion h⟩
    · exact ⟨by simp, by simp, fun h => F64.noConfusion h, fun h => F64.noConfusion h⟩
    · exact ⟨by simp, by simp, fun h => F64.noConfusion h, fun h => F64.noConfusion h⟩
    · exact hwf o ho
  | clearAll => exact ⟨hform, by simp [step, clearAll]⟩
  | reset rendered => exact ⟨by simp [step, emptyForm], hwf⟩
  | _ => exact ⟨hform, hwf⟩

theorem run_orders_wellFormed (pf : String → F64) (toStr : JSValue → String)
    (acts : List Action) :
    ∀ s : AppState, s.form.commodity ≠ "" →
      (∀ o ∈ s.orders, o.partyName ≠ "" ∧ o.commodity ≠ "" ∧
        o.quantity ≠ .nan ∧ o.quantityGiven ≠ .nan) →
      ∀ o ∈ (run pf toStr s acts).orders, o.partyName ≠ "" ∧ o.commodity ≠ "" ∧
        o.quantity ≠ .nan ∧ o.quantityGiven ≠ .nan := by
  induction acts with
  | nil => intro s _ h2; exact h2
  | cons a acts ih =>
    intro s h1 h2
    obtain ⟨h3, h4⟩ := step_orders_wellFormed pf toStr s a h1 h2
    exact ih (step pf toStr s a) h3 h4

/-- In every collection reached from the empty one, each stored order has a
non-empty partyName, a non-empty commodity, and a quantity and a quantityGiven
that are not NaN. -/
theorem reachable_orders_wellFormed (pf : String → F64) (toStr : JSValue → String)
    (now : String) (acts : List Action) :
    ∀ o ∈ (run pf toStr (initialState now) acts).orders,
      o.partyName ≠ "" ∧ o.commodity ≠ "" ∧ o.quantity ≠ .nan ∧ o.quantityGiven ≠ .nan :=
  run_orders_wellFormed pf toStr acts (initialState now) (by simp [initialState, emptyForm])
    (by simp [initialState])

theorem find?_congr_mem {α : Type} (p q : α → Bool) (l : List α)
    (h : ∀ x ∈ l, p x = q x) : l.find? p = l.find? q := by
  induction l with
  | nil => rfl
  | cons x l ih =>
    have hx := h x (List.mem_cons_self _ _)
    have ih2 := ih (fun y hy => h y (List.mem_cons_of_mem _ hy))
    simp only [List.find?_cons, hx, ih2]

/-- C10: for every sequence of orders as the program stores them (partyName and
commodity not empty, quantity and quantityGiven not NaN), outstandingByType
returns exactly one aggregate per distinct lowercase partyName||commodity key
occurring in the input; that aggregate carries the party and commodity labels of
the first order with that key, total and given are the left-to-right sums of
quantity and quantityGiven over all input orders with that key, and
pending = round((total - given) * 1000) / 1000. -/
theorem outstandingByType_aggregates (lower : String → String) (l : List Order)
    (hwf : ∀ o ∈ l, o.partyName ≠ "" ∧ o.commodity ≠ "" ∧
      o.quantity ≠ .nan ∧ o.quantityGiven ≠ .nan) :
    ((outstandingByType lower l).map (aggregateKey lower)).Nodup ∧
    (∀ k : String, k ∈ (outstandingByType lower l).map (aggregateKey lower) ↔
        k ∈ l.map (specOutstandingKey lower)) ∧
    (∀ a ∈ outstandingByType lower l,
      (∃ o, l.find? (fun o => specOutstandingKey lower o = aggregateKey lower a) = some o ∧
        a.party = o.partyName ∧ a.commodity = o.commodity) ∧
      a.total = sumLeft
        ((l.filter (fun o => specOutstandingKey lower o = aggregateKey lower a)).map
          (fun o => o.quantity)) ∧
      a.given = sumLeft
        ((l.filter (fun o => specOutstandingKey lower o = aggregateKey lower a)).map
          (fun o => o.quantityGiven)) ∧
      a.pending = mathRound ((a.total - a.given) * 1000) / 1000) := by
  have hdash : ∀ t : String, t ≠ "" → orDash t = t := by
    intro t ht
    simp [orDash, truthyStr, ht]
  have hkey : ∀ o ∈ l, outstandingKey lower o = specOutstandingKey lower o := by
    intro o ho
    obtain ⟨hp, hc, _, _⟩ := hwf o ho
    simp only [outstandingKey, specOutstandingKey, hdash _ hp, hdash _ hc]
  have hmap : l.map (outstandingKey lower) = l.map (specOutstandingKey lower) :=
    List.map_congr_left hkey
  have hperm : ((outstandingByType lower l).map (aggregateKey lower)).Perm
      (firstKeys (l.map (outstandingKey lower))) := by
    rw [← outstandingValues_keys]
    exact (arraySort_perm _ _).map _
  refine ⟨hperm.nodup_iff.2 (nodup_firstKeys _), ?_, ?_⟩
  · intro k
    rw [hperm.mem_iff, mem_firstKeys, hmap]
  · intro a ha
    obtain ⟨⟨o, hfind, hp, hc⟩, ht, hg, hpend⟩ :=
      outstandingValues_spec lower l a ((mem_outstandingByType lower l a).1 ha)
    have hfilter : l.filter (fun o => outstandingKey lower o = aggregateKey lower a)
        = l.filter (fun o => specOutstandingKey lower o = aggregateKey lower a) := by
      apply List.filter_congr
      intro x hx
      rw [hkey x hx]
    have hfind2 : l.find? (fun o => decide (specOutstandingKey lower o = aggregateKey lower a))
        = some o := by
      rw [← hfind]
      apply find?_congr_mem
      intro x hx
      rw [hkey x hx]
    have ho : o ∈ l := List.mem_of_find?_eq_some hfind
    refine ⟨⟨o, hfind2, ?_, ?_⟩, ?_, ?_, hpend⟩
    · rw [hp, hdash _ (hwf o ho).1]
    · rw [hc, hdash _ (hwf o ho).2.1]
    · rw [ht, hfilter]
      congr 1
      apply List.map_congr_left
      intro x hx
      exact numOrZero_of_ne_nan _ (hwf x (List.mem_filter.1 hx).1).2.2.1
    · rw [hg, hfilter]
      congr 1
      apply List.map_congr_left
      intro x hx
      exact numOrZero_of_ne_nan _ (hwf x (List.mem_filter.1 hx).1).2.2.2

theorem outstandingByType_aggregates_witness :
    (∀ o ∈ samplePurchases, o.partyName ≠ "" ∧ o.commodity ≠ "" ∧
      o.quantity ≠ .nan ∧ o.quantityGiven ≠ .nan) ∧
    samplePurchases.map (fun o => (o.partyName, o.commodity, o.quantity, o.quantityGiven))
      = [("Upendra", "Cotton", 100, 40)] ∧
    outstandingByType asciiLower samplePurchases
      = [{ party := "Upendra", commodity := "Cotton", total := 100, given := 40,
           pending := 60 }] ∧
    ((outstandingByType asciiLower samplePurchases).map (aggregateKey asciiLower)).Nodup ∧
    (∀ k : String, k ∈ (outstandingByType asciiLower samplePurchases).map
        (aggregateKey asciiLower) ↔
        k ∈ samplePurchases.map (specOutstandingKey asciiLower)) ∧
    outstandingByType asciiLower (ordersAfter fractionSaves)
      = [{ party := "Govind", commodity := "Cotton",
           total := .fin (5404319552844596 / 18014398509481984), given := 0,
           pending := parseFloatText "0.3" },
         { party := "Mahesh", commodity := "Cotton", total := parseFloatText "0.958",
           given := parseFloatText "3.0025", pending := parseFloatText "-2.045" }] ∧
    F64.fin (5404319552844596 / 18014398509481984)
      = parseFloatText "0.2" + parseFloatText "0.1" :=
  have hwf : ∀ o ∈ samplePurchases, o.partyName ≠ "" ∧ o.commodity ≠ "" ∧
      o.quantity ≠ .nan ∧ o.quantityGiven ≠ .nan := by decide!
  ⟨hwf, by decide!, by decide!,
   (outstandingByType_aggregates asciiLower samplePurchases hwf).1,
   (outstandingByType_aggregates asciiLower samplePurchases hwf).2.1,
   by decide!, by decide!⟩

/-! ## The order stored by handleSave -/

/-- The order put in front by the updater of handleSave is `item`, except
possibly for its id. -/
theorem saveUpdater_head (item : Order) (u : String) (prev : List Order) :
    ∃ o, (saveUpdater item u prev).head? = some o ∧
      o.type = item.type ∧ o.partyName = item.partyName ∧
      o.quantity = item.quantity ∧ o.quantityGiven = item.quantityGiven ∧
      o.rate = item.rate ∧ o.pending = item.pending := by
  by_cases ht : truthyId item.id = true
  · exact ⟨item, by simp [saveUpdater, ht], rfl, rfl, rfl, rfl, rfl, rfl⟩
  · have hf : truthyId item.id = false := by simpa using ht
    exact ⟨{ item with id := some u }, by simp [saveUpdater, hf], rfl, rfl, rfl, rfl, rfl, rfl⟩

/-- The order stored by handleSave has the type held by the form, whatever the
active tab is. -/
theorem handleSave_stores_form_type (pf : String → F64) (u now rendered : String)
    (s : AppState) (hname : isBlank s.form.partyName = false) :
    ∃ o, (handleSave pf u now rendered s).1.orders.head? = some o ∧
      o.type = s.form.type := by
  rw [handleSave_of_not_blank pf u now rendered s hname]
  obtain ⟨o, ho, ht, _⟩ := saveUpdater_head (saveItem pf now s.form) u s.orders
  exact ⟨o, ho, ht⟩

/-- After "Set Type" is pressed on the sales or purchase tab, the order stored
by handleSave has the type of that tab. -/
theorem setType_then_save_type (pf : String → F64) (toStr : JSValue → String)
    (u now rendered : String) (s : AppState)
    (hname : isBlank s.form.partyName = false) :
    ∃ o, (handleSave pf u now rendered (step pf toStr s .setType)).1.orders.head? = some o ∧
      (s.tab = "sales" → o.type = "SALES") ∧
      (s.tab = "purchase" → o.type = "PURCHASE") := by
  obtain ⟨o, ho, ht⟩ := handleSave_stores_form_type pf u now rendered
    (step pf toStr s .setType) hname
  refine ⟨o, ho, ?_, ?_⟩
  · intro h
    rw [ht]
    simp [step, h]
  · intro h
    rw [ht]
    simp [step, h]

/-- C11: with the Purchase tab active and a non-blank partyName typed into the
initial form, handleSave stores an order of type SALES, which the Sales
dashboard lists and the Purchase dashboard does not. -/
theorem save_on_purchase_tab_stores_sales :
    purchaseTabState.tab = "purchase" ∧
    isBlank purchaseTabState.form.partyName = false ∧
    (handleSave parseFloatText "k3f9x2a" "t1" "t1" purchaseTabState).1.tab = "purchase" ∧
    (handleSave parseFloatText "k3f9x2a" "t1" "t1" purchaseTabState).1.orders.map
        (fun o => (o.partyName, o.type)) = [("Upendra", "SALES")] ∧
    (purchaseOrders (handleSave parseFloatText "k3f9x2a" "t1" "t1" purchaseTabState).1).length
        = 0 ∧
    (salesOrders (handleSave parseFloatText "k3f9x2a" "t1" "t1" purchaseTabState).1).length
        = 1 := by
  decide

/-- C12 fails as stated: with text that is not a number in all three numeric
inputs, the stored quantity and quantityGiven are 0, but the stored rate is the
entered text, not an absent value. -/
theorem handleSave_keeps_rate_text :
    isBlank badNumbersState.form.partyName = false ∧
    parseFloatText badNumbersState.form.rate = .nan ∧
    (handleSave parseFloatText "zz81hq0" "t5" "t4" badNumbersState).1.orders.head?.map
        (fun o => (o.quantity, o.quantityGiven, o.rate))
      = some (0, 0, some (JSValue.str "n/a")) ∧
    (handleSave parseFloatText "zz81hq0" "t5" "t4" badNumbersState).1.orders.head?.map
        (fun o => o.rate) ≠ some none := by
  decide

/-- C12 (amended): for every form with a non-blank partyName, handleSave is
never rejected because of its numeric fields: it alerts nothing and stores an
order whose quantity is 0 whenever the entered quantity does not parse as a
number, whose quantityGiven is 0 whenever the entered quantityGiven does not
parse as a number, and whose rate is the entered rate text as typed, whether or
not that text parses as a number. -/
theorem handleSave_numeric_fields (pf : String → F64) (u now rendered : String)
    (s : AppState) (hname : isBlank s.form.partyName = false) :
    (handleSave pf u now rendered s).2 = none ∧
    ∃ o, (handleSave pf u now rendered s).1.orders.head? = some o ∧
      (pf s.form.quantity = .nan → o.quantity = 0) ∧
      (pf s.form.quantityGiven = .nan → o.quantityGiven = 0) ∧
      o.rate = some (JSValue.str s.form.rate) := by
  rw [handleSave_of_not_blank pf u now rendered s hname]
  obtain ⟨o, ho, _, _, hq, hg, hr, _⟩ := saveUpdater_head (saveItem pf now s.form) u s.orders
  refine ⟨rfl, o, ho, ?_, ?_, ?_⟩
  · intro h
    rw [hq]
    simp [saveItem, parseFloatOrZero, h, numOrZero]
  · intro h
    rw [hg]
    simp [saveItem, parseFloatOrZero, h, numOrZero]
  · rw [hr]
    rfl

theorem handleSave_numeric_fields_witness :
    isBlank badNumbersState.form.partyName = false ∧
    parseFloatText badNumbersState.form.quantity = .nan ∧
    parseFloatText badNumbersState.form.quantityGiven = .nan ∧
    (handleSave parseFloatText "zz81hq0" "t5" "t4" badNumbersState).2 = none ∧
    ∃ o, (handleSave parseFloatText "zz81hq0" "t5" "t4" badNumbersState).1.orders.head? = some o ∧
      (parseFloatText badNumbersState.form.quantity = .nan → o.quantity = 0) ∧
      (parseFloatText badNumbersState.form.quantityGiven = .nan → o.quantityGiven = 0) ∧
      o.rate = some (JSValue.str badNumbersState.form.rate) :=
  ⟨by decide, by decide, by decide,
   handleSave_numeric_fields parseFloatText "zz81hq0" "t5" "t4" badNumbersState (by decide)⟩

/-! ## The dashboard filter -/

theorem startsWith_iff (n : List Char) :
    ∀ h : List Char, startsWith n h = true ↔ ∃ post, h = n ++ post := by
  induction n with
  | nil => intro h; simp [startsWith]
  | cons a n ih =>
    intro h
    cases h with
    | nil => simp [startsWith]
    | cons b h =>
      simp only [startsWith, Bool.and_eq_true, beq_iff_eq, ih, List.cons_append,
        List.cons.injEq]
      constructor
      · rintro ⟨rfl, post, rfl⟩; exact ⟨post, rfl, rfl⟩
      · rintro ⟨post, rfl, rfl⟩; exact ⟨rfl, post, rfl⟩

theorem includesChars_iff (n : List Char) :
    ∀ h : List Char, includesChars n h = true ↔ ∃ pre post, h = pre ++ n ++ post := by
  intro h
  induction h with
  | nil =>
    simp only [includesChars, startsWith_iff]
    constructor
    · rintro ⟨post, hp⟩; exact ⟨[], post, by simpa using hp⟩
    · rintro ⟨pre, post, hp⟩
      have h1 := congrArg List.length hp
      simp only [List.length_nil, List.length_append] at h1
      have hn : n = [] := List.length_eq_zero.1 (by omega)
      exact ⟨[], by simp [hn]⟩
  | cons b bs ih =>
    simp only [includesChars, Bool.or_eq_true, startsWith_iff, ih]
    constructor
    · rintro (⟨post, hp⟩ | ⟨pre, post, hp⟩)
      · exact ⟨[], post, by simpa using hp⟩
      · exact ⟨b :: pre, post, by simp [hp]⟩
    · rintro ⟨pre, post, hp⟩
      cases pre with
      | nil => exact Or.inl ⟨post, by simpa using hp⟩
      | cons c pre =>
        simp only [List.cons_append, List.cons.injEq] at hp
        exact Or.inr ⟨pre, post, hp.2⟩

/-- `haystack.includes(needle)` holds exactly when the needle is a contiguous
part of the haystack. -/
theorem includes_iff (haystack needle : String) :
    includes haystack needle = true ↔
      ∃ pre post : List Char, haystack.data = pre ++ needle.data ++ post :=
  includesChars_iff needle.data haystack.data

theorem includes_empty (haystack : String) : includes haystack "" = true :=
  (includes_iff haystack "").2 ⟨[], haystack.data, rfl⟩

theorem filter_matches_empty (lower : String → String) (hlower : lower "" = "")
    (l : List Order) : l.filter (matchesFilter lower "") = l := by
  rw [List.filter_eq_self]
  intro o _
  simp [matchesFilter, hlower, includes_empty]

/-- C13: the Sales (respectively Purchase) dashboard is groupByBrokerParty
applied to exactly the orders of type SALES (respectively PURCHASE) for which
(partyName + " " + brokerName) lowercased contains the filter text lowercased,
containment meaning that the text occurs as a contiguous part; with the empty
filter text (whose lowercase is empty) every order of that type is a member of
some group of its dashboard. -/
theorem dashboards_filter_then_group (lower : String → String) (s : AppState) :
    salesGrouped lower s = groupByBrokerParty lower
      (s.orders.filter (fun o => o.type = "SALES" ∧
        includes (lower (o.partyName ++ " " ++ o.brokerName)) (lower s.filterText) = true)) ∧
    purchaseGrouped lower s = groupByBrokerParty lower
      (s.orders.filter (fun o => o.type = "PURCHASE" ∧
        includes (lower (o.partyName ++ " " ++ o.brokerName)) (lower s.filterText) = true)) ∧
    (∀ haystack needle : String, includes haystack needle = true ↔
      ∃ pre post : List Char, haystack.data = pre ++ needle.data ++ post) ∧
    (lower "" = "" → s.filterText = "" →
      (∀ o ∈ s.orders, o.type = "SALES" →
        matchesFilter lower s.filterText o = true ∧
        ∃ g ∈ salesGrouped lower s, o ∈ g.items) ∧
      (∀ o ∈ s.orders, o.type = "PURCHASE" →
        matchesFilter lower s.filterText o = true ∧
        ∃ g ∈ purchaseGrouped lower s, o ∈ g.items)) := by
  refine ⟨?_, ?_, includes_iff, ?_⟩
  · simp only [salesGrouped, salesOrders, List.filter_filter, matchesFilter]
    congr 1
    apply List.filter_congr
    intro o _
    simp [Bool.and_comm]
  · simp only [purchaseGrouped, purchaseOrders, List.filter_filter, matchesFilter]
    congr 1
    apply List.filter_congr
    intro o _
    simp [Bool.and_comm]
  · intro hlower hq
    refine ⟨?_, ?_⟩
    · intro o ho ht
      have hm : matchesFilter lower s.filterText o = true := by
        simp [matchesFilter, hq, hlower, includes_empty]
      refine ⟨hm, ?_⟩
      have hmem : o ∈ (salesOrders s).filter (matchesFilter lower s.filterText) := by
        rw [hq, filter_matches_empty lower hlower]
        exact List.mem_filter.2 ⟨ho, by simpa using ht⟩
      obtain ⟨g, hg, _, hog⟩ := exists_group_of_mem lower _ o hmem
      exact ⟨g, hg, hog⟩
    · intro o ho ht
      have hm : matchesFilter lower s.filterText o = true := by
        simp [matchesFilter, hq, hlower, includes_empty]
      refine ⟨hm, ?_⟩
      have hmem : o ∈ (purchaseOrders s).filter (matchesFilter lower s.filterText) := by
        rw [hq, filter_matches_empty lower hlower]
        exact List.mem_filter.2 ⟨ho, by simpa using ht⟩
      obtain ⟨g, hg, _, hog⟩ := exists_group_of_mem lower _ o hmem
      exact ⟨g, hg, hog⟩

theorem dashboards_filter_then_group_witness :
    asciiLower "" = "" ∧ sampleState.filterText = "" ∧
    ((∀ o ∈ sampleState.orders, o.type = "SALES" →
        matchesFilter asciiLower sampleState.filterText o = true ∧
        ∃ g ∈ salesGrouped asciiLower sampleState, o ∈ g.items) ∧
      (∀ o ∈ sampleState.orders, o.type = "PURCHASE" →
        matchesFilter asciiLower sampleState.filterText o = true ∧
        ∃ g ∈ purchaseGrouped asciiLower sampleState, o ∈ g.items)) ∧
    filteredState.orders.map (matchesFilter asciiLower filteredState.filterText)
      = [true, true, false] ∧
    (salesGrouped asciiLower filteredState).map (fun g => (g.key, g.items.length))
      = [("ramesh||govind", 2)] ∧
    purchaseGrouped asciiLower filteredState = [] :=
  ⟨by decide, rfl,
   (dashboards_filter_then_group asciiLower sampleState).2.2.2 (by decide) rfl,
   by decide, by decide!, by decide!⟩

/-! ## Loading the stored collection -/

theorem loadOrders_absent (jsonParse : String → Option Json) :
    loadOrders jsonParse none = Json.arr [] := rfl

theorem loadOrders_empty_text (jsonParse : String → Option Json) :
    loadOrders jsonParse (some "") = Json.arr [] := by
  simp [loadOrders, truthyStr]

theorem loadOrders_unparsable (jsonParse : String → Option Json) (raw : String)
    (h : jsonParse raw = none) : loadOrders jsonParse (some raw) = Json.arr [] := by
  unfold loadOrders
  simp only [h]
  split_ifs <;> rfl

/-- Stored text that parses is returned as parsed, whatever value it denotes. -/
theorem loadOrders_parsed (jsonParse : String → Option Json) (raw : String) (v : Json)
    (hraw : raw ≠ "") (h : jsonParse raw = some v) :
    loadOrders jsonParse (some raw) = v := by
  have ht : truthyStr raw = true := (truthyStr_eq_true_iff raw).2 hraw
  simp only [loadOrders, ht, if_true, h]

/-- C14: with the storage slot holding the text `{}`, `null` or `42`, all of
them valid JSON but none an array of order records, loadOrders returns the
parsed object, null or number instead of the empty collection, so its result is
not a sequence. -/
theorem loadOrders_returns_non_array :
    loadOrders parseJsonLiteral (some "{}") = Json.obj [] ∧
    loadOrders parseJsonLiteral (some "null") = Json.null ∧
    loadOrders parseJsonLiteral (some "42") = Json.num 42 ∧
    (loadOrders parseJsonLiteral (some "{}")).isArray = false ∧
    (loadOrders parseJsonLiteral (some "null")).isArray = false ∧
    (loadOrders parseJsonLiteral (some "42")).isArray = false := by
  refine ⟨by rfl, by rfl, ?_, by decide!, by decide!, by decide!⟩
  with_unfolding_all rfl

end KodhiyaOrders
